import Mathlib

/-!
Verification of the dense/local Hamiltonian core of a quantum circuit
library.  The Python source (`qibo/base/hamiltonians.py`) is shallowly
embedded below: matrices over the full `2^n`-dimensional space are total
functions `ℕ → ℕ → Cq` (entries outside the square of interest are never
read by the properties proved here), scalars are `Cq` (complex numbers
with rational components, mirroring the complex scalars accepted by the
code), and the mutable caches of the Python objects (eigen-caches, the
single-slot exponential cache, the Trotter-circuit cache) are explicit
record fields threaded through state-passing functions.
-/

namespace Qibo

/-- Complex numbers with rational real and imaginary components.  Used for
matrix entries and for the scalars accepted by Hamiltonian arithmetic. -/
structure Cq where
  re : ℚ
  im : ℚ
deriving DecidableEq

namespace Cq

@[ext] theorem ext' {a b : Cq} (h1 : a.re = b.re) (h2 : a.im = b.im) : a = b := by
  cases a; cases b; cases h1; cases h2; rfl

instance : Zero Cq := ⟨⟨0, 0⟩⟩
instance : One Cq := ⟨⟨1, 0⟩⟩
instance : Add Cq := ⟨fun a b => ⟨a.re + b.re, a.im + b.im⟩⟩
instance : Neg Cq := ⟨fun a => ⟨-a.re, -a.im⟩⟩
instance : Mul Cq := ⟨fun a b => ⟨a.re * b.re - a.im * b.im, a.re * b.im + a.im * b.re⟩⟩

@[simp] theorem zero_re : (0 : Cq).re = 0 := rfl
@[simp] theorem zero_im : (0 : Cq).im = 0 := rfl
@[simp] theorem one_re : (1 : Cq).re = 1 := rfl
@[simp] theorem one_im : (1 : Cq).im = 0 := rfl
@[simp] theorem add_re (a b : Cq) : (a + b).re = a.re + b.re := rfl
@[simp] theorem add_im (a b : Cq) : (a + b).im = a.im + b.im := rfl
@[simp] theorem neg_re (a : Cq) : (-a).re = -a.re := rfl
@[simp] theorem neg_im (a : Cq) : (-a).im = -a.im := rfl
@[simp] theorem mul_re (a b : Cq) : (a * b).re = a.re * b.re - a.im * b.im := rfl
@[simp] theorem mul_im (a b : Cq) : (a * b).im = a.re * b.im + a.im * b.re := rfl

instance : CommRing Cq where
  nsmul := nsmulRec
  zsmul := zsmulRec
  add_assoc a b c := by ext <;> simp <;> ring
  zero_add a := by ext <;> simp
  add_zero a := by ext <;> simp
  add_comm a b := by ext <;> simp <;> ring
  left_distrib a b c := by ext <;> simp <;> ring
  right_distrib a b c := by ext <;> simp <;> ring
  zero_mul a := by ext <;> simp
  mul_zero a := by ext <;> simp
  mul_assoc a b c := by ext <;> simp <;> ring
  one_mul a := by ext <;> simp
  mul_one a := by ext <;> simp
  neg_add_cancel a := by ext <;> simp
  mul_comm a b := by ext <;> simp <;> ring

end Cq

/-- A matrix over the computational basis: a total function on index pairs.
Only the entries below the relevant dimension are ever consulted. -/
abbrev Mat := ℕ → ℕ → Cq

/-- The identity matrix, `numpy.eye` restricted to the entries that the
properties proved here read. -/
def eyeFun : Mat := fun i j => if i = j then 1 else 0

/-- Modelled from the spec: `_calculate_exp` is an abstract method of the
base `Hamiltonian` class, implemented by the numeric backends outside this
repository; the spec states it returns `exp(-i*a*H)`.  Since that value is
a pure function of the scalar `a` and of the Hamiltonian matrix, it is
represented symbolically by the determining pair `(a, matrix)`. -/
structure ExpVal where
  a : ℚ
  m : Mat

/-- Python `Hamiltonian` object state: qubit count, matrix (with its element
type recorded as an abstract `dtype` tag), and the three caches
(`_eigenvalues`, `_eigenvectors`, `_exp`). -/
structure Hamiltonian where
  nqubits : ℕ
  dtype : ℕ
  matrix : Mat
  eigvals : Option (List Cq) := none
  eigvecs : Option Mat := none
  expCache : Option (ℚ × ExpVal) := none

instance : Inhabited Hamiltonian := ⟨⟨0, 0, fun _ _ => 0, none, none, none⟩⟩

/-- Modelled from the spec: the backend computation of `exp(-i*a*H)`
(see `ExpVal`). -/
def calcExp (h : Hamiltonian) (a : ℚ) : ExpVal := ⟨a, h.matrix⟩

/-- `Hamiltonian.exp(a)`: returns the cached result when the single-slot
cache holds the same scalar, otherwise recomputes and overwrites the slot.
The returned `Bool` records whether a recomputation happened. -/
def Hamiltonian.exp (h : Hamiltonian) (a : ℚ) : ExpVal × Hamiltonian × Bool :=
  match h.expCache with
  | some (a0, r) =>
      if a0 = a then (r, h, false)
      else
        let r' := calcExp h a
        (r', { h with expCache := some (a, r') }, true)
  | none =>
      let r' := calcExp h a
      (r', { h with expCache := some (a, r') }, true)

/-- `Hamiltonian.__mul__` with a scalar operand: fresh instance with the
scaled matrix; eigen-caches are propagated by the sign rules of the code
(`real(o) >= 0` keeps eigenvalue order, negative real part reverses it;
`real(o) > 0` keeps eigenvectors, `o == 0` collapses them to the identity);
the exponential cache of the fresh instance starts empty. -/
def Hamiltonian.mul (h : Hamiltonian) (o : Cq) : Hamiltonian :=
  { nqubits := h.nqubits
    dtype := h.dtype
    matrix := fun i j => h.matrix i j * o
    eigvals :=
      match h.eigvals with
      | none => none
      | some vs => if 0 ≤ o.re then some (vs.map (o * ·)) else some (vs.reverse.map (o * ·))
    eigvecs :=
      match h.eigvecs with
      | none => none
      | some V => if 0 < o.re then some V else if o = 0 then some eyeFun else none
    expCache := none }

/-- Python object identity of a term: terms are shared mutable objects, so
the local-Hamiltonian state refers to them through identifiers resolved by
an environment. -/
abbrev TermId := ℕ

/-- An object passed as a term to the `LocalHamiltonian` constructor: either
a `Hamiltonian`-family instance or some other object (tagged). -/
inductive TermObj where
  | ham (h : Hamiltonian)
  | other (tag : ℕ)

/-- Errors raised by `LocalHamiltonian.__init__`, with the data interpolated
into the corresponding message. -/
inductive LHErr where
  | typeErr (tag : ℕ)
  | sizeErr (targets : List ℕ) (termNqubits : ℕ)
  | dtypeErr (d1 d2 : ℕ)
deriving DecidableEq

/-- The parts of a local Hamiltonian: dicts are insertion-ordered
association lists from qubit-id tuples to term objects. -/
abbrev Parts := List (List (List ℕ × TermId))

/-- The `__iter__` order: part order, then within-part insertion order. -/
def pairsOf (parts : Parts) : List (List ℕ × TermId) := parts.flatten

/-- One gate of the Trotter circuit: object identity `gid`, target qubits,
the (ghost) identity of the term that generated it, and the unitary
parameter. -/
structure GateRec where
  gid : ℕ
  targets : List ℕ
  tid : TermId
  param : ExpVal

/-- Python `LocalHamiltonian` object state: static parts and term
environment, derived `nqubits`/`dtype`, and the mutable Trotter-circuit
cache (`term_gates`, `_dt`, `_circuit`). -/
structure LocalHamiltonian where
  parts : Parts
  env : TermId → Hamiltonian
  nqubits : ℕ
  dtype : ℕ
  termGates : List (TermId × List ℕ) := []
  dtQ : Option ℚ := none
  circ : Option (List GateRec) := none

/-- The union of all qubit subsets across all parts. -/
def allTargets (parts : Parts) : Finset ℕ :=
  ((pairsOf parts).map Prod.fst).flatten.toFinset

/-- The validation loop of `LocalHamiltonian.__init__`: type check, then
targets/nqubits cardinality check, then dtype uniformity check, per term in
iteration order; `d` threads the dtype of the first term seen. -/
def checkPairs (env : TermId → TermObj) :
    List (List ℕ × TermId) → Option ℕ → Except LHErr (Option ℕ)
  | [], d => .ok d
  | (ts, tid) :: rest, d =>
      match env tid with
      | .other tag => .error (.typeErr tag)
      | .ham h =>
          if ts.length ≠ h.nqubits then .error (.sizeErr ts h.nqubits)
          else
            match d with
            | none => checkPairs env rest (some h.dtype)
            | some d0 =>
                if h.dtype ≠ d0 then .error (.dtypeErr h.dtype d0)
                else checkPairs env rest (some d0)

/-- Resolve a validated term object. -/
def resolveTerm (env : TermId → TermObj) (tid : TermId) : Hamiltonian :=
  match env tid with
  | .ham h => h
  | .other _ => default

/-- `LocalHamiltonian.__init__`: validates every `(targets, term)` pair and
builds the object, computing `nqubits` as the cardinality of the union of
all qubit subsets; the circuit caches start empty. -/
def mkLocal (parts : Parts) (env : TermId → TermObj) : Except LHErr LocalHamiltonian :=
  match checkPairs env (pairsOf parts) none with
  | .error e => .error e
  | .ok d =>
      .ok { parts := parts
            env := resolveTerm env
            nqubits := (allTargets parts).card
            dtype := d.getD 0 }

/-- `LocalHamiltonian.from_single_term`: even part on bonds
`(2i, (2i+1) % n)` for `i < n/2 + n%2`, odd part on bonds
`(2i+1, (2i+2) % n)` for `i < n/2`. -/
def fromSingleTermParts (nqubits : ℕ) (tid : TermId) : Parts :=
  [(List.range (nqubits / 2 + nqubits % 2)).map
      (fun i => ([2 * i, (2 * i + 1) % nqubits], tid)),
   (List.range (nqubits / 2)).map
      (fun i => ([2 * i + 1, (2 * i + 2) % nqubits], tid))]

/-- `LocalHamiltonian.from_single_term` proper: builds the two parts and
passes them to the constructor. -/
def fromSingleTerm (nqubits : ℕ) (tid : TermId) (env : TermId → TermObj) :
    Except LHErr LocalHamiltonian :=
  mkLocal (fromSingleTermParts nqubits tid) env

/-- Call `term.exp(a)` on the shared term object `tid`, threading the
mutation of its single-slot cache through the environment. -/
def expOn (env : TermId → Hamiltonian) (tid : TermId) (a : ℚ) :
    ExpVal × (TermId → Hamiltonian) × Bool :=
  let (v, h', b) := (env tid).exp a
  (v, fun t => if t = tid then h' else env t, b)

/-- `term_gates` update: add gate id `g` to the entry of `tid`, creating the
entry when the term is seen for the first time (dict insertion order). -/
def tgAdd : List (TermId × List ℕ) → TermId → ℕ → List (TermId × List ℕ)
  | [], tid, g => [(tid, [g])]
  | (t, gs) :: rest, tid, g =>
      if t = tid then (t, gs ++ [g]) :: rest else (t, gs) :: tgAdd rest tid g

/-- Dict lookup in `term_gates` (empty list when the key is absent). -/
def lookupTG : List (TermId × List ℕ) → TermId → List ℕ
  | [], _ => []
  | (t, gs) :: rest, tid => if t = tid then gs else lookupTG rest tid

/-- Intermediate state while `_create_circuit` runs: term environment (exp
caches mutate), `term_gates`, the gates added to the circuit so far, and
the next fresh gate identity. -/
structure BSt where
  env : TermId → Hamiltonian
  tg : List (TermId × List ℕ)
  gates : List GateRec
  next : ℕ

/-- One loop iteration of `_create_circuit`: compute `term.exp(dt/2)`,
create the gate, record it in `term_gates`, append it to the circuit. -/
def addGateStep (a : ℚ) (s : BSt) (p : List ℕ × TermId) : BSt :=
  let (v, env', _) := expOn s.env p.2 a
  { env := env'
    tg := tgAdd s.tg p.2 s.next
    gates := s.gates ++ [⟨s.next, p.1, p.2, v⟩]
    next := s.next + 1 }

/-- A sweep of `_create_circuit` over a sequence of `(targets, term)`
pairs. -/
def buildSweep (a : ℚ) (s : BSt) (seq : List (List ℕ × TermId)) : BSt :=
  seq.foldl (addGateStep a) s

/-- The full gate sequence of `_create_circuit`: all pairs in forward part
order, then all pairs with the parts reversed (items within each part kept
in insertion order). -/
def trotterSeq (parts : Parts) : List (List ℕ × TermId) :=
  pairsOf parts ++ pairsOf parts.reverse

/-- The inner loop of the `set_parameters` dict comprehension: one
`term.exp(dt/2)` call per recorded gate of the term `tid`. -/
def expList (a : ℚ) (tid : TermId) (env : TermId → Hamiltonian) :
    List ℕ → (TermId → Hamiltonian) × List (ℕ × ExpVal)
  | [] => (env, [])
  | g :: gs =>
      let r := expOn env tid a
      let rest := expList a tid r.2.1 gs
      (rest.1, (g, r.1) :: rest.2)

/-- The `set_parameters` dict comprehension: iterate `term_gates` in
insertion order, emitting the updated parameter for every recorded gate. -/
def reparamSweep (a : ℚ) (env : TermId → Hamiltonian) :
    List (TermId × List ℕ) → (TermId → Hamiltonian) × List (ℕ × ExpVal)
  | [] => (env, [])
  | e :: rest =>
      let u1 := expList a e.1 env e.2
      let u2 := reparamSweep a u1.1 rest
      (u2.1, u1.2 ++ u2.2)

/-- First-match lookup in the update mapping handed to `set_parameters`. -/
def lookupUpd : List (ℕ × ExpVal) → ℕ → Option ExpVal
  | [], _ => none
  | (g, v) :: rest, gid => if g = gid then some v else lookupUpd rest gid

/-- `circuit.set_parameters`: each gate in the mapping receives its new
parameter, gates outside the mapping are untouched. -/
def applyUpds (gates : List GateRec) (upds : List (ℕ × ExpVal)) : List GateRec :=
  gates.map fun g =>
    match lookupUpd upds g.gid with
    | some v => { g with param := v }
    | none => g

/-- `LocalHamiltonian.circuit(dt)`: same `dt` as the last call returns the
object unchanged; otherwise the circuit is built from scratch on the first
call and re-parameterized in place on later calls. -/
def LocalHamiltonian.circuit (H : LocalHamiltonian) (dt : ℚ) : LocalHamiltonian :=
  if H.dtQ = some dt then H
  else
    match H.circ with
    | none =>
        let b := buildSweep (dt / 2) ⟨H.env, H.termGates, [], 0⟩ (trotterSeq H.parts)
        { H with dtQ := some dt, env := b.env, termGates := b.tg, circ := some b.gates }
    | some gates =>
        let r := reparamSweep (dt / 2) H.env H.termGates
        { H with dtQ := some dt, env := r.1, circ := some (applyUpds gates r.2) }

/-- Bit of qubit `q` in basis index `i` of an `n`-qubit register.  The code
reshapes a `2^n` index into `n` axes of length 2, so qubit `0` is the most
significant bit. -/
def bitAt (n q i : ℕ) : ℕ := i / 2 ^ (n - 1 - q) % 2

/-- The sub-index of a term: the bits of `i` at the target qubits, in target
tuple order (the einsum binds the term axis of `targets[j]` to the output
axis of that qubit). -/
def subIdx (n : ℕ) (ts : List ℕ) (i : ℕ) : ℕ :=
  ts.foldl (fun acc q => 2 * acc + bitAt n q i) 0

/-- The complement index: the bits of `i` at the non-target qubits in
increasing qubit order — the row (resp. column) index of the reshaped
identity `np.eye(2^(n - len(targets)))` bound to the leftover einsum
labels. -/
def compIdx (n : ℕ) (ts : List ℕ) (i : ℕ) : ℕ :=
  subIdx n ((List.range n).filter (fun q => q ∉ ts)) i

/-- One summand of `dense_hamiltonian`: the einsum
`tc,ec->chars` of the reshaped term matrix with the reshaped identity has
no contracted label, so the output entry at `(i, j)` is the term entry at
the target bits times the identity entry at the complement bits. -/
def embedEntry (n : ℕ) (ts : List ℕ) (t : Hamiltonian) (i j : ℕ) : Cq :=
  t.matrix (subIdx n ts i) (subIdx n ts j) * eyeFun (compIdx n ts i) (compIdx n ts j)

/-- An entry of the dense reconstruction: the sum of the embeddings of all
`(targets, term)` pairs in iteration order. -/
def denseEntry (H : LocalHamiltonian) (i j : ℕ) : Cq :=
  ((pairsOf H.parts).map (fun p => embedEntry H.nqubits p.1 (H.env p.2) i j)).sum

/-- Modelled from the spec: `EINSUM_CHARS` lives in `qibo/config.py`,
outside this repository; the spec documents it as a Latin-alphabet labeling
scheme with 52 distinct labels. -/
def einsumChars : String :=
  "abcdefghijklmnopqrstuvwxyzABCDEFGHIJKLMNOPQRSTUVWXYZ"

/-- `LocalHamiltonian.dense_hamiltonian`: raises `NotImplementedError` when
the `2 * nqubits` einsum labels needed exceed the available label alphabet,
otherwise returns the dense reconstruction as a `Hamiltonian`. -/
def LocalHamiltonian.dense_hamiltonian (H : LocalHamiltonian) :
    Except Unit Hamiltonian :=
  if 2 * H.nqubits > einsumChars.length then .error ()
  else .ok { nqubits := H.nqubits, dtype := H.dtype, matrix := fun i j => denseEntry H i j }

/-- `LocalHamiltonian.__mul__`: every distinct term (by identity) is scaled
once through `terms_set`, and the parts are rebuilt with the same keys
pointing at the scaled terms; the resulting object is reconstructed by the
constructor, so its circuit caches start empty.  In the embedding the term
environment is updated pointwise, which keeps a term shared by several
sites shared after scaling. -/
def LocalHamiltonian.mul (H : LocalHamiltonian) (o : Cq) : LocalHamiltonian :=
  { parts := H.parts
    env := fun tid => (H.env tid).mul o
    nqubits := (allTargets H.parts).card
    dtype := H.dtype }

/-- Kronecker product of a matrix with a matrix of dimension `m`. -/
def kron (m : ℕ) (A B : Mat) : Mat :=
  fun i j => A (i / m) (j / m) * B (i % m) (j % m)

/-- Brute-force embedding of a two-qubit matrix on the contiguous bond
`(q, q+1)` of an `n`-qubit register:
`eye(2^q) ⊗ M ⊗ eye(2^(n-2-q))`. -/
def bondMat (n q : ℕ) (M : Mat) : Mat :=
  kron (2 ^ (n - 2 - q) * 4) eyeFun (kron (2 ^ (n - 2 - q)) M eyeFun)

/-- Brute-force embedding of a two-qubit matrix on the wrapping bond
`(n-1, 0)`: the first term axis reads the least significant bit, the second
the most significant, and the middle bits must agree. -/
def wrapMat (n : ℕ) (M : Mat) : Mat :=
  fun i j =>
    M (i % 2 * 2 + i / 2 ^ (n - 1)) (j % 2 * 2 + j / 2 ^ (n - 1)) *
      eyeFun (i / 2 % 2 ^ (n - 2)) (j / 2 % 2 ^ (n - 2))

/-- Brute-force embedding of the ring bond `(q, (q+1) % n)`. -/
def ringBondMat (n q : ℕ) (M : Mat) : Mat :=
  if q + 1 < n then bondMat n q M else wrapMat n M

/-- Brute-force dense matrix of a translationally invariant ring: the
two-qubit matrix `M` summed over every ring bond. -/
def ringBruteMat (n : ℕ) (M : Mat) : Mat :=
  fun i j => ∑ q ∈ Finset.range n, ringBondMat n q M i j

/-- The qubit subsets used as keys inside one part are pairwise disjoint. -/
def partKeysDisjoint (part : List (List ℕ × TermId)) : Prop :=
  part.Pairwise (fun p q => ∀ x, x ∈ p.1 → x ∉ q.1)

/-- Concrete Hamiltonian with a populated exponential cache, for the C6
witness. -/
def expSlotHam : Hamiltonian :=
  { nqubits := 1, dtype := 0, matrix := fun _ _ => 0,
    expCache := some (3, ⟨3, fun _ _ => 0⟩) }

/-- Concrete one-qubit local Hamiltonian for the C9 witness. -/
def oneQubitLocal : LocalHamiltonian :=
  { parts := [[([0], 0)]],
    env := fun _ => { nqubits := 1, dtype := 0, matrix := fun i j => ⟨(i : ℚ), (j : ℚ)⟩ },
    nqubits := 1, dtype := 0 }

/-- The concrete two-qubit term used by the C8 witness. -/
def ringTerm : Hamiltonian := { nqubits := 2, dtype := 0, matrix := fun i j => ⟨(i : ℚ), (j : ℚ)⟩ }

/-- Concrete fresh two-part local Hamiltonian shared by the Trotter
witnesses. -/
def trotterSample : LocalHamiltonian :=
  { parts := [[([0, 1], 0), ([2, 3], 1)], [([1, 2], 0)]],
    env := fun t =>
      { nqubits := 2, dtype := 0,
        matrix := fun i j => ⟨(t : ℚ) * 10 + i, (j : ℚ)⟩ },
    nqubits := 4, dtype := 0 }

/-- The exponential cache of a term is consistent: whatever is cached is
what the backend would compute.  This holds for every object whose cache
was only ever filled by `Hamiltonian.exp`. -/
def ExpOkD (h : Hamiltonian) : Prop :=
  ∀ a r, h.expCache = some (a, r) → r = calcExp h a

/-- Cache consistency for every term of an environment. -/
def ExpOkE (env : TermId → Hamiltonian) : Prop := ∀ tid, ExpOkD (env tid)

/-- The gate list produced by one `_create_circuit` sweep: gids count up
from `n`, each gate carries the backend exponential of its term. -/
def mkGates (env : TermId → Hamiltonian) (a : ℚ) : ℕ → List (List ℕ × TermId) → List GateRec
  | _, [] => []
  | n, p :: rest => ⟨n, p.1, p.2, calcExp (env p.2) a⟩ :: mkGates env a (n + 1) rest

/-- The `term_gates` dict produced by a sweep. -/
def tgSeq : List (TermId × List ℕ) → ℕ → List (List ℕ × TermId) → List (TermId × List ℕ)
  | tg, _, [] => tg
  | tg, n, p :: rest => tgSeq (tgAdd tg p.2 n) (n + 1) rest

/-- Exactness of the `term_gates` bookkeeping relative to the circuit: the
dict has no duplicate term keys, and the recorded gate-id set of every term
is exactly the set of circuit gates generated from that term (in creation
order). -/
def TGexact (gates : List GateRec) (tg : List (TermId × List ℕ)) : Prop :=
  (tg.map Prod.fst).Nodup ∧
  ∀ t, lookupTG tg t = (gates.filter (fun g => g.tid = t)).map (fun g => g.gid)

/-!  ### Theorems  -/

/-- C5: scalar multiplication of a dense Hamiltonian propagates the
eigen-caches by the sign rule: cached eigenvalues are scaled, in the same
order when the real part of the scalar is non-negative and in reversed
order otherwise; cached eigenvectors are kept for a scalar of positive real
part and collapse to the identity for the zero scalar; caches that were
never computed stay uncomputed; and the matrix of the product is the scaled
matrix. -/
theorem hamiltonian_mul_cache_propagation (h : Hamiltonian) (o : Cq) :
    ((h.mul o).matrix = fun i j => h.matrix i j * o) ∧
    (h.eigvals = none → (h.mul o).eigvals = none) ∧
    (∀ vs, h.eigvals = some vs →
      (0 ≤ o.re → (h.mul o).eigvals = some (vs.map (o * ·))) ∧
      (o.re < 0 → (h.mul o).eigvals = some (vs.reverse.map (o * ·)))) ∧
    (h.eigvecs = none → (h.mul o).eigvecs = none) ∧
    (∀ V, h.eigvecs = some V →
      (0 < o.re → (h.mul o).eigvecs = some V) ∧
      (o = 0 → (h.mul o).eigvecs = some eyeFun)) ∧
    (h.mul o).expCache = none := by
  refine ⟨rfl, ?_, ?_, ?_, ?_, rfl⟩
  · intro hv; simp [Hamiltonian.mul, hv]
  · intro vs hv
    constructor
    · intro hre; simp [Hamiltonian.mul, hv, if_pos hre]
    · intro hre; simp [Hamiltonian.mul, hv, if_neg (not_le.mpr hre)]
  · intro hv; simp [Hamiltonian.mul, hv]
  · intro V hV
    constructor
    · intro hre; simp [Hamiltonian.mul, hV, if_pos hre]
    · intro ho
      subst ho
      simp [Hamiltonian.mul, hV]

/-- Closed witness for `hamiltonian_mul_cache_propagation`: a concrete
Hamiltonian with both eigen-caches computed, scaled by `-1` (eigenvalues
reversed and negated) and by `0` (eigenvectors collapse to the identity). -/
theorem hamiltonian_mul_cache_propagation_witness :
    (({ nqubits := 1, dtype := 0, matrix := fun i j => ⟨(i : ℚ), (j : ℚ)⟩,
        eigvals := some [⟨1, 0⟩, ⟨2, 0⟩], eigvecs := some eyeFun } : Hamiltonian).mul
        ⟨-1, 0⟩).eigvals = some ([⟨1, 0⟩, ⟨2, 0⟩].reverse.map ((⟨-1, 0⟩ : Cq) * ·)) ∧
    (({ nqubits := 1, dtype := 0, matrix := fun i j => ⟨(i : ℚ), (j : ℚ)⟩,
        eigvals := some [⟨1, 0⟩, ⟨2, 0⟩], eigvecs := some eyeFun } : Hamiltonian).mul
        0).eigvecs = some eyeFun :=
  ⟨((hamiltonian_mul_cache_propagation _ ⟨-1, 0⟩).2.2.1 _ rfl).2 (by norm_num),
   ((hamiltonian_mul_cache_propagation _ 0).2.2.2.2.1 _ rfl).2 rfl⟩

/-- C6: `Hamiltonian.exp` memoizes only the single most recent scalar: a
call with the cached scalar returns the cached result with the object
unchanged and no recomputation; a call with any other scalar recomputes and
overwrites the single slot; after any call the slot holds exactly the pair
of the requested scalar and the returned result. -/
theorem hamiltonian_exp_single_slot (h : Hamiltonian) (a : ℚ) :
    (∀ r, h.expCache = some (a, r) → h.exp a = (r, h, false)) ∧
    (∀ a0 r, h.expCache = some (a0, r) → a0 ≠ a →
      h.exp a = (calcExp h a, { h with expCache := some (a, calcExp h a) }, true)) ∧
    (h.expCache = none →
      h.exp a = (calcExp h a, { h with expCache := some (a, calcExp h a) }, true)) ∧
    (h.exp a).2.1.expCache = some (a, (h.exp a).1) := by
  refine ⟨?_, ?_, ?_, ?_⟩
  · intro r hc; simp [Hamiltonian.exp, hc]
  · intro a0 r hc hne; simp [Hamiltonian.exp, hc, hne]
  · intro hc; simp [Hamiltonian.exp, hc]
  · rcases hc : h.expCache with _ | ⟨a0, r⟩
    · simp [Hamiltonian.exp, hc]
    · by_cases hne : a0 = a
      · subst hne; simp [Hamiltonian.exp, hc]
      · simp [Hamiltonian.exp, hc, hne]

/-- Closed witness for `hamiltonian_exp_single_slot`: a concrete object with
scalar `3` cached returns the cached value on `exp 3` and overwrites the
slot on `exp 5`. -/
theorem hamiltonian_exp_single_slot_witness :
    (expSlotHam.exp 3 = (⟨3, fun _ _ => 0⟩, expSlotHam, false)) ∧
    (expSlotHam.exp 5 =
      (calcExp expSlotHam 5,
       { expSlotHam with expCache := some (5, calcExp expSlotHam 5) }, true)) :=
  ⟨(hamiltonian_exp_single_slot _ 3).1 _ rfl,
   (hamiltonian_exp_single_slot _ 5).2.1 3 _ rfl (by norm_num)⟩

/-- C9: `dense_hamiltonian` fails with the capacity error exactly when the
`2 * nqubits` tensor labels required exceed the 52 available einsum labels,
and below that ceiling it returns the full (untruncated) dense
reconstruction. -/
theorem dense_hamiltonian_capacity (H : LocalHamiltonian) :
    (2 * H.nqubits ≤ 52 →
      H.dense_hamiltonian =
        .ok { nqubits := H.nqubits, dtype := H.dtype,
              matrix := fun i j => denseEntry H i j }) ∧
    (2 * H.nqubits > 52 → H.dense_hamiltonian = .error ()) ∧
    einsumChars.length = 52 := by
  have hlen : einsumChars.length = 52 := rfl
  refine ⟨?_, ?_, hlen⟩
  · intro hle
    simp only [LocalHamiltonian.dense_hamiltonian, hlen]
    rw [if_neg (by omega)]
  · intro hgt
    simp only [LocalHamiltonian.dense_hamiltonian, hlen]
    rw [if_pos (by omega)]

/-- Closed witness for `dense_hamiltonian_capacity`: a one-qubit local
Hamiltonian is reconstructed without error. -/
theorem dense_hamiltonian_capacity_witness :
    oneQubitLocal.dense_hamiltonian =
      .ok { nqubits := oneQubitLocal.nqubits, dtype := oneQubitLocal.dtype,
            matrix := fun i j => denseEntry oneQubitLocal i j } :=
  (dense_hamiltonian_capacity _).1 (by simp [oneQubitLocal])

/-- C10: for odd `nqubits ≥ 3` the first part produced by
`from_single_term` contains both the bond `(0,1)` and the wrapping bond
`(nqubits-1, 0)`, which share qubit 0, so its keys are not pairwise
disjoint; for even `nqubits` the keys of both parts are pairwise
disjoint. -/
theorem from_single_term_part_disjointness (n : ℕ) (tid : TermId)
    (p₀ p₁ : List (List ℕ × TermId))
    (hp : fromSingleTermParts n tid = [p₀, p₁]) :
    (Odd n → 3 ≤ n →
      ([0, 1], tid) ∈ p₀ ∧ ([n - 1, 0], tid) ∈ p₀ ∧ ¬ partKeysDisjoint p₀) ∧
    (Even n → partKeysDisjoint p₀ ∧ partKeysDisjoint p₁) := by
  have hp₀ : p₀ = (List.range (n / 2 + n % 2)).map
      (fun i => ([2 * i, (2 * i + 1) % n], tid)) := by
    have := hp; simp [fromSingleTermParts] at this; exact this.1.symm
  have hp₁ : p₁ = (List.range (n / 2)).map
      (fun i => ([2 * i + 1, (2 * i + 2) % n], tid)) := by
    have := hp; simp [fromSingleTermParts] at this; exact this.2.symm
  constructor
  · intro hodd h3
    have hmod : n % 2 = 1 := Nat.odd_iff.mp hodd
    have hmem₀ : ([0, 1], tid) ∈ p₀ := by
      rw [hp₀]
      refine List.mem_map.mpr ⟨0, List.mem_range.mpr (by omega), ?_⟩
      have h1 : (2 * 0 + 1) % n = 1 := Nat.mod_eq_of_lt (by omega)
      simp [h1]
    have hmemw : ([n - 1, 0], tid) ∈ p₀ := by
      rw [hp₀]
      refine List.mem_map.mpr ⟨(n - 1) / 2, List.mem_range.mpr (by omega), ?_⟩
      have h1 : 2 * ((n - 1) / 2) = n - 1 := by omega
      have h2 : (n - 1 + 1) % n = 0 := by
        rw [show n - 1 + 1 = n from by omega]; exact Nat.mod_self n
      simp [h1, h2]
    refine ⟨hmem₀, hmemw, ?_⟩
    intro hdisj
    rw [hp₀] at hdisj
    simp only [partKeysDisjoint] at hdisj
    rw [List.pairwise_iff_getElem] at hdisj
    have hlen : ((List.range (n / 2 + n % 2)).map
        (fun i => ([2 * i, (2 * i + 1) % n], tid))).length = n / 2 + n % 2 := by
      simp
    have hlt : (n - 1) / 2 < n / 2 + n % 2 := by omega
    have h0lt : 0 < n / 2 + n % 2 := by omega
    have := hdisj 0 ((n - 1) / 2) (by omega) (by omega) (by omega)
    simp only [List.getElem_map, List.getElem_range] at this
    have h0 : (0 : ℕ) ∈ [2 * 0, (2 * 0 + 1) % n] := by simp
    have h0' : (0 : ℕ) ∈ [2 * ((n - 1) / 2), (2 * ((n - 1) / 2) + 1) % n] := by
      have h1 : 2 * ((n - 1) / 2) = n - 1 := by omega
      have h2 : (2 * ((n - 1) / 2) + 1) % n = 0 := by
        rw [h1]
        have h3 : n - 1 + 1 = n := by omega
        rw [h3, Nat.mod_self]
      simp [h2]
    exact this 0 h0 h0'
  · intro heven
    have hmod : n % 2 = 0 := Nat.even_iff.mp heven
    constructor
    · rw [hp₀]
      simp only [partKeysDisjoint]
      rw [List.pairwise_iff_getElem]
      intro a b ha hb hab
      simp only [List.length_map, List.length_range] at ha hb
      simp only [List.getElem_map, List.getElem_range]
      intro x hx hx'
      have hma : (2 * a + 1) % n = 2 * a + 1 := Nat.mod_eq_of_lt (by omega)
      have hmb : (2 * b + 1) % n = 2 * b + 1 := Nat.mod_eq_of_lt (by omega)
      simp [hma] at hx
      simp [hmb] at hx'
      omega
    · rw [hp₁]
      simp only [partKeysDisjoint]
      rw [List.pairwise_iff_getElem]
      intro a b ha hb hab
      simp only [List.length_map, List.length_range] at ha hb
      simp only [List.getElem_map, List.getElem_range]
      intro x hx hx'
      have hma : (2 * a + 2) % n = 2 * a + 2 := Nat.mod_eq_of_lt (by omega)
      have hmb : (2 * b + 2) % n = if 2 * b + 2 = n then 0 else 2 * b + 2 := by
        by_cases hbn : 2 * b + 2 = n
        · rw [hbn, Nat.mod_self]; simp
        · rw [if_neg hbn]; exact Nat.mod_eq_of_lt (by omega)
      simp [hma] at hx
      rw [hmb] at hx'
      by_cases hbn : 2 * b + 2 = n
      · rw [if_pos hbn] at hx'; simp at hx'; omega
      · rw [if_neg hbn] at hx'; simp at hx'; omega

/-- Unfolding of the validation loop at a Hamiltonian term whose arity
check passes, with an empty dtype accumulator. -/
theorem checkPairs_cons_ham_none (env : TermId → TermObj) (ts : List ℕ)
    (tid : TermId) (rest : List (List ℕ × TermId)) (h : Hamiltonian)
    (hham : env tid = .ham h) (hlen : ts.length = h.nqubits) :
    checkPairs env ((ts, tid) :: rest) none = checkPairs env rest (some h.dtype) := by
  simp only [checkPairs, hham]
  rw [if_neg (by simpa using hlen)]

/-- Unfolding of the validation loop at a Hamiltonian term whose arity and
dtype checks pass, with a set dtype accumulator. -/
theorem checkPairs_cons_ham_some (env : TermId → TermObj) (ts : List ℕ)
    (tid : TermId) (rest : List (List ℕ × TermId)) (h : Hamiltonian) (d0 : ℕ)
    (hham : env tid = .ham h) (hlen : ts.length = h.nqubits)
    (hdt : h.dtype = d0) :
    checkPairs env ((ts, tid) :: rest) (some d0) = checkPairs env rest (some d0) := by
  simp only [checkPairs, hham]
  rw [if_neg (by simpa using hlen)]
  show (if h.dtype ≠ d0 then Except.error (LHErr.dtypeErr h.dtype d0)
      else checkPairs env rest (some d0)) = _
  rw [if_neg (by simpa using hdt)]

/-- Unfolding of the validation loop at a non-Hamiltonian term. -/
theorem checkPairs_cons_other (env : TermId → TermObj) (ts : List ℕ)
    (tid : TermId) (rest : List (List ℕ × TermId)) (tag : ℕ) (d : Option ℕ)
    (htag : env tid = .other tag) :
    checkPairs env ((ts, tid) :: rest) d = .error (.typeErr tag) := by
  simp only [checkPairs, htag]

/-- Unfolding of the validation loop at a Hamiltonian term whose arity
check fails. -/
theorem checkPairs_cons_sizeErr (env : TermId → TermObj) (ts : List ℕ)
    (tid : TermId) (rest : List (List ℕ × TermId)) (h : Hamiltonian)
    (d : Option ℕ) (hham : env tid = .ham h) (hlen : ts.length ≠ h.nqubits) :
    checkPairs env ((ts, tid) :: rest) d = .error (.sizeErr ts h.nqubits) := by
  simp only [checkPairs, hham]
  rw [if_pos hlen]

/-- Unfolding of the validation loop at a Hamiltonian term whose dtype
check fails against the set accumulator. -/
theorem checkPairs_cons_dtypeErr (env : TermId → TermObj) (ts : List ℕ)
    (tid : TermId) (rest : List (List ℕ × TermId)) (h : Hamiltonian) (d0 : ℕ)
    (hham : env tid = .ham h) (hlen : ts.length = h.nqubits)
    (hdt : h.dtype ≠ d0) :
    checkPairs env ((ts, tid) :: rest) (some d0) = .error (.dtypeErr h.dtype d0) := by
  simp only [checkPairs, hham]
  rw [if_neg (by simpa using hlen)]
  show (if h.dtype ≠ d0 then Except.error (LHErr.dtypeErr h.dtype d0)
      else checkPairs env rest (some d0)) = _
  rw [if_pos hdt]

/-- Auxiliary for C7: the validation loop succeeds when every term is a
Hamiltonian of the right arity and of the common dtype `dc`. -/
theorem checkPairs_ok (env : TermId → TermObj) (dc : ℕ) :
    ∀ (l : List (List ℕ × TermId)) (d : Option ℕ), (d = none ∨ d = some dc) →
    (∀ p ∈ l, ∃ h, env p.2 = .ham h ∧ p.1.length = h.nqubits ∧ h.dtype = dc) →
    ∃ d', checkPairs env l d = .ok d' := by
  intro l
  induction l with
  | nil => intro d _ _; exact ⟨d, rfl⟩
  | cons p rest ih =>
      intro d hd hall
      obtain ⟨ts, tid⟩ := p
      obtain ⟨h, hham, hlen, hdt⟩ := hall _ (List.mem_cons_self _ _)
      have hrest : ∀ p ∈ rest, ∃ h, env p.2 = .ham h ∧ p.1.length = h.nqubits ∧
          h.dtype = dc := fun p hp => hall p (List.mem_cons_of_mem _ hp)
      rcases hd with hd | hd
      · subst hd
        rw [checkPairs_cons_ham_none env ts tid rest h hham (by simpa using hlen)]
        exact ih (some h.dtype) (Or.inr (by rw [hdt])) hrest
      · subst hd
        rw [checkPairs_cons_ham_some env ts tid rest h dc hham
          (by simpa using hlen) hdt]
        exact ih (some dc) (Or.inr rfl) hrest

/-- Auxiliary for C7: the validation loop raises the type error when some
term is not a Hamiltonian instance while the Hamiltonian terms all pass
their checks. -/
theorem checkPairs_typeErr (env : TermId → TermObj) (dc : ℕ) :
    ∀ (l : List (List ℕ × TermId)) (d : Option ℕ), (d = none ∨ d = some dc) →
    (∀ p ∈ l, ∀ h, env p.2 = .ham h → p.1.length = h.nqubits ∧ h.dtype = dc) →
    (∃ p ∈ l, ∃ tag, env p.2 = .other tag) →
    ∃ tag, checkPairs env l d = .error (.typeErr tag) := by
  intro l
  induction l with
  | nil => intro d _ _ hex; simp at hex
  | cons p rest ih =>
      intro d hd hall hex
      obtain ⟨ts, tid⟩ := p
      rcases hhead : env tid with h | tag
      · have hrest : ∃ p ∈ rest, ∃ tag, env p.2 = .other tag := by
          rcases hex with ⟨q, hq, tag, hqo⟩
          rcases List.mem_cons.mp hq with rfl | hq
          · rw [hqo] at hhead; cases hhead
          · exact ⟨q, hq, tag, hqo⟩
        obtain ⟨hlen, hdt⟩ := hall _ (List.mem_cons_self _ _) h hhead
        have hallr : ∀ p ∈ rest, ∀ h, env p.2 = .ham h →
            p.1.length = h.nqubits ∧ h.dtype = dc :=
          fun p hp => hall p (List.mem_cons_of_mem _ hp)
        rcases hd with hd | hd
        · subst hd
          rw [checkPairs_cons_ham_none env ts tid rest h hhead (by simpa using hlen)]
          exact ih (some h.dtype) (Or.inr (by rw [hdt])) hallr hrest
        · subst hd
          rw [checkPairs_cons_ham_some env ts tid rest h dc hhead
            (by simpa using hlen) hdt]
          exact ih (some dc) (Or.inr rfl) hallr hrest
      · exact ⟨tag, checkPairs_cons_other env ts tid rest tag d hhead⟩

/-- Auxiliary for C7: the validation loop raises the structural error
naming the offending subset and the term's qubit count, when every term is
a Hamiltonian of the common dtype but some subset's cardinality does not
match its term's qubit count. -/
theorem checkPairs_sizeErr (env : TermId → TermObj) (dc : ℕ) :
    ∀ (l : List (List ℕ × TermId)) (d : Option ℕ), (d = none ∨ d = some dc) →
    (∀ p ∈ l, ∃ h, env p.2 = .ham h ∧ h.dtype = dc) →
    (∃ p ∈ l, ∃ h, env p.2 = .ham h ∧ p.1.length ≠ h.nqubits) →
    ∃ ts k, (∃ p ∈ l, ∃ h, env p.2 = .ham h ∧ p.1 = ts ∧ h.nqubits = k ∧
        ts.length ≠ k) ∧
      checkPairs env l d = .error (.sizeErr ts k) := by
  intro l
  induction l with
  | nil => intro d _ _ hex; simp at hex
  | cons p rest ih =>
      intro d hd hall hex
      obtain ⟨ts, tid⟩ := p
      obtain ⟨h, hham, hdt⟩ := hall _ (List.mem_cons_self _ _)
      by_cases hlen : ts.length = h.nqubits
      · have hrest : ∃ p ∈ rest, ∃ h, env p.2 = .ham h ∧ p.1.length ≠ h.nqubits := by
          rcases hex with ⟨q, hq, h', hq', hqlen⟩
          rcases List.mem_cons.mp hq with rfl | hq
          · rw [hq'] at hham; cases hham; simp at hqlen; exact absurd hlen hqlen
          · exact ⟨q, hq, h', hq', hqlen⟩
        have hallr : ∀ p ∈ rest, ∃ h, env p.2 = .ham h ∧ h.dtype = dc :=
          fun p hp => hall p (List.mem_cons_of_mem _ hp)
        rcases hd with hd | hd
        · subst hd
          obtain ⟨ts', k', ⟨q, hq, hw⟩, hck⟩ :=
            ih (some h.dtype) (Or.inr (by rw [hdt])) hallr hrest
          refine ⟨ts', k', ⟨q, List.mem_cons_of_mem _ hq, hw⟩, ?_⟩
          rw [checkPairs_cons_ham_none env ts tid rest h hham hlen]
          exact hck
        · subst hd
          obtain ⟨ts', k', ⟨q, hq, hw⟩, hck⟩ :=
            ih (some dc) (Or.inr rfl) hallr hrest
          refine ⟨ts', k', ⟨q, List.mem_cons_of_mem _ hq, hw⟩, ?_⟩
          rw [checkPairs_cons_ham_some env ts tid rest h dc hham hlen hdt]
          exact hck
      · exact ⟨ts, h.nqubits, ⟨(ts, tid), List.mem_cons_self _ _, h, hham, rfl,
          rfl, hlen⟩, checkPairs_cons_sizeErr env ts tid rest h d hham hlen⟩

/-- Auxiliary for C7: once the dtype accumulator is set to `d0`, a term of
a different dtype raises the mismatch error naming both types. -/
theorem checkPairs_dtypeErr_some (env : TermId → TermObj) :
    ∀ (l : List (List ℕ × TermId)) (d0 : ℕ),
    (∀ p ∈ l, ∃ h, env p.2 = .ham h ∧ p.1.length = h.nqubits) →
    (∃ p ∈ l, ∃ h, env p.2 = .ham h ∧ h.dtype ≠ d0) →
    ∃ d1, d1 ≠ d0 ∧ (∃ p ∈ l, ∃ h, env p.2 = .ham h ∧ h.dtype = d1) ∧
      checkPairs env l (some d0) = .error (.dtypeErr d1 d0) := by
  intro l
  induction l with
  | nil => intro d0 _ hex; simp at hex
  | cons p rest ih =>
      intro d0 hall hex
      obtain ⟨ts, tid⟩ := p
      obtain ⟨h, hham, hlen⟩ := hall _ (List.mem_cons_self _ _)
      by_cases hdt : h.dtype = d0
      · have hrest : ∃ p ∈ rest, ∃ h, env p.2 = .ham h ∧ h.dtype ≠ d0 := by
          rcases hex with ⟨q, hq, h', hq', hqdt⟩
          rcases List.mem_cons.mp hq with rfl | hq
          · rw [hq'] at hham; cases hham; exact absurd hdt hqdt
          · exact ⟨q, hq, h', hq', hqdt⟩
        have hallr : ∀ p ∈ rest, ∃ h, env p.2 = .ham h ∧ p.1.length = h.nqubits :=
          fun p hp => hall p (List.mem_cons_of_mem _ hp)
        obtain ⟨d1, hne, ⟨q, hq, hw⟩, hck⟩ := ih d0 hallr hrest
        refine ⟨d1, hne, ⟨q, List.mem_cons_of_mem _ hq, hw⟩, ?_⟩
        rw [checkPairs_cons_ham_some env ts tid rest h d0 hham (by simpa using hlen) hdt]
        exact hck
      · exact ⟨h.dtype, hdt, ⟨(ts, tid), List.mem_cons_self _ _, h, hham, rfl⟩,
          checkPairs_cons_dtypeErr env ts tid rest h d0 hham (by simpa using hlen) hdt⟩

/-- Auxiliary for C7: two terms of different dtypes make the validation
loop (started with an empty accumulator) raise the mismatch error naming
two actually-occurring distinct dtypes. -/
theorem checkPairs_dtypeErr (env : TermId → TermObj)
    (l : List (List ℕ × TermId))
    (hall : ∀ p ∈ l, ∃ h, env p.2 = .ham h ∧ p.1.length = h.nqubits)
    (hex : ∃ p ∈ l, ∃ q ∈ l, ∃ h h', env p.2 = .ham h ∧ env q.2 = .ham h' ∧
      h.dtype ≠ h'.dtype) :
    ∃ d1 d2, d1 ≠ d2 ∧
      (∃ p ∈ l, ∃ h, env p.2 = .ham h ∧ h.dtype = d1) ∧
      (∃ q ∈ l, ∃ h, env q.2 = .ham h ∧ h.dtype = d2) ∧
      checkPairs env l none = .error (.dtypeErr d1 d2) := by
  cases l with
  | nil => simp at hex
  | cons p rest =>
      obtain ⟨ts, tid⟩ := p
      obtain ⟨h, hham, hlen⟩ := hall _ (List.mem_cons_self _ _)
      have hallr : ∀ p ∈ rest, ∃ h, env p.2 = .ham h ∧ p.1.length = h.nqubits :=
        fun p hp => hall p (List.mem_cons_of_mem _ hp)
      have hrest : ∃ p ∈ rest, ∃ h', env p.2 = .ham h' ∧ h'.dtype ≠ h.dtype := by
        by_contra hcon
        push_neg at hcon
        have huni : ∀ p ∈ (ts, tid) :: rest, ∀ h', env p.2 = .ham h' →
            h'.dtype = h.dtype := by
          intro q hq h' hq'
          rcases List.mem_cons.mp hq with rfl | hq
          · rw [hq'] at hham; cases hham; rfl
          · exact hcon q hq h' hq'
        obtain ⟨q1, hq1, q2, hq2, h1, h2, hq1', hq2', hne⟩ := hex
        exact hne ((huni q1 hq1 h1 hq1').trans (huni q2 hq2 h2 hq2').symm)
      obtain ⟨d1, hne, ⟨q, hq, hw⟩, hck⟩ :=
        checkPairs_dtypeErr_some env rest h.dtype hallr hrest
      refine ⟨d1, h.dtype, hne, ⟨q, List.mem_cons_of_mem _ hq, hw⟩,
        ⟨(ts, tid), List.mem_cons_self _ _, h, hham, rfl⟩, ?_⟩
      rw [checkPairs_cons_ham_none env ts tid rest h hham (by simpa using hlen)]
      exact hck

/-- Rewriting `mkLocal` by the outcome of the validation loop. -/
theorem mkLocal_error (parts : Parts) (env : TermId → TermObj) (e : LHErr)
    (hck : checkPairs env (pairsOf parts) none = .error e) :
    mkLocal parts env = .error e := by
  simp only [mkLocal, hck]

/-- Rewriting `mkLocal` by a successful validation loop. -/
theorem mkLocal_ok (parts : Parts) (env : TermId → TermObj) (d : Option ℕ)
    (hck : checkPairs env (pairsOf parts) none = .ok d) :
    mkLocal parts env =
      .ok { parts := parts, env := resolveTerm env,
            nqubits := (allTargets parts).card, dtype := d.getD 0 } := by
  simp only [mkLocal, hck]

/-- C7: constructing a LocalHamiltonian raises a type error when some term
is not a Hamiltonian-family instance (the other checks passing), a
structural error naming the subset and the term's qubit count when some
subset's cardinality mismatches its term, and a type-mismatch error naming
two actually-occurring distinct element types when the terms disagree on
dtype; on success the instance's `nqubits` is the cardinality of the union
of all qubit subsets across all parts. -/
theorem local_hamiltonian_init_validation (parts : Parts) (env : TermId → TermObj) :
    ((∃ dc, ∀ p ∈ pairsOf parts, ∃ h, env p.2 = .ham h ∧
        p.1.length = h.nqubits ∧ h.dtype = dc) →
      ∃ H, mkLocal parts env = .ok H ∧ H.nqubits = (allTargets parts).card ∧
        H.parts = parts) ∧
    ((∃ dc, ∀ p ∈ pairsOf parts, ∀ h, env p.2 = .ham h →
        p.1.length = h.nqubits ∧ h.dtype = dc) →
      (∃ p ∈ pairsOf parts, ∃ tag, env p.2 = .other tag) →
      ∃ tag, mkLocal parts env = .error (.typeErr tag)) ∧
    ((∃ dc, ∀ p ∈ pairsOf parts, ∃ h, env p.2 = .ham h ∧ h.dtype = dc) →
      (∃ p ∈ pairsOf parts, ∃ h, env p.2 = .ham h ∧ p.1.length ≠ h.nqubits) →
      ∃ ts k, (∃ p ∈ pairsOf parts, ∃ h, env p.2 = .ham h ∧ p.1 = ts ∧
          h.nqubits = k ∧ ts.length ≠ k) ∧
        mkLocal parts env = .error (.sizeErr ts k)) ∧
    ((∀ p ∈ pairsOf parts, ∃ h, env p.2 = .ham h ∧ p.1.length = h.nqubits) →
      (∃ p ∈ pairsOf parts, ∃ q ∈ pairsOf parts, ∃ h h', env p.2 = .ham h ∧
        env q.2 = .ham h' ∧ h.dtype ≠ h'.dtype) →
      ∃ d1 d2, d1 ≠ d2 ∧
        (∃ p ∈ pairsOf parts, ∃ h, env p.2 = .ham h ∧ h.dtype = d1) ∧
        (∃ q ∈ pairsOf parts, ∃ h, env q.2 = .ham h ∧ h.dtype = d2) ∧
        mkLocal parts env = .error (.dtypeErr d1 d2)) := by
  refine ⟨?_, ?_, ?_, ?_⟩
  · rintro ⟨dc, hok⟩
    obtain ⟨d', hck⟩ := checkPairs_ok env dc (pairsOf parts) none (Or.inl rfl) hok
    exact ⟨_, mkLocal_ok parts env d' hck, rfl, rfl⟩
  · rintro ⟨dc, hok⟩ hex
    obtain ⟨tag, hck⟩ := checkPairs_typeErr env dc (pairsOf parts) none (Or.inl rfl) hok hex
    exact ⟨tag, mkLocal_error parts env _ hck⟩
  · rintro ⟨dc, hok⟩ hex
    obtain ⟨ts, k, hw, hck⟩ :=
      checkPairs_sizeErr env dc (pairsOf parts) none (Or.inl rfl) hok hex
    exact ⟨ts, k, hw, mkLocal_error parts env _ hck⟩
  · intro hok hex
    obtain ⟨d1, d2, hne, hw1, hw2, hck⟩ := checkPairs_dtypeErr env (pairsOf parts) hok hex
    exact ⟨d1, d2, hne, hw1, hw2, mkLocal_error parts env _ hck⟩

/-- Closed witness for `local_hamiltonian_init_validation`: a valid
two-part input constructs successfully with `nqubits` the union
cardinality, and a non-Hamiltonian term raises the type error. -/
theorem local_hamiltonian_init_validation_witness :
    (∃ H, mkLocal [[([0, 1], 0)], [([1, 2], 0)]]
        (fun _ => .ham { nqubits := 2, dtype := 5, matrix := fun _ _ => 0 }) =
          .ok H ∧
      H.nqubits = (allTargets [[([0, 1], 0)], [([1, 2], 0)]]).card ∧
      H.parts = [[([0, 1], 0)], [([1, 2], 0)]]) ∧
    (∃ tag, mkLocal [[([0, 1], 0)]] (fun _ => .other 9) =
      .error (.typeErr tag)) :=
  ⟨(local_hamiltonian_init_validation _ _).1
      ⟨5, by intro p hp; simp [pairsOf] at hp; rcases hp with rfl | rfl <;>
        exact ⟨_, rfl, by simp, rfl⟩⟩,
   (local_hamiltonian_init_validation _ _).2.1
      ⟨0, by intro p hp h hh; cases hh⟩
      ⟨([0, 1], 0), by simp [pairsOf], 9, rfl⟩⟩

/-- Every `(targets, term)` pair of `from_single_term` names the single
shared term and a two-qubit subset. -/
theorem fromSingleTermParts_pairs_shape (n : ℕ) (tid : TermId) :
    ∀ p ∈ pairsOf (fromSingleTermParts n tid), p.2 = tid ∧ p.1.length = 2 := by
  intro p hp
  simp only [pairsOf, fromSingleTermParts, List.mem_flatten, List.mem_cons,
    List.not_mem_nil, or_false] at hp
  obtain ⟨part, hpart, hppart⟩ := hp
  rcases hpart with rfl | rfl <;>
    · obtain ⟨i, _, rfl⟩ := List.mem_map.mp hppart
      exact ⟨rfl, rfl⟩

/-- The union of the qubit subsets of an even `from_single_term` ring is
the full qubit range. -/
theorem allTargets_fromSingleTermParts (m : ℕ) (tid : TermId) (hm : 0 < m) :
    allTargets (fromSingleTermParts (2 * m) tid) = Finset.range (2 * m) := by
  ext q
  simp only [allTargets, List.mem_toFinset, List.mem_flatten, List.mem_map,
    Finset.mem_range]
  constructor
  · rintro ⟨L, ⟨p, hp, rfl⟩, hqL⟩
    simp only [pairsOf, fromSingleTermParts, List.mem_flatten, List.mem_cons,
      List.not_mem_nil, or_false] at hp
    obtain ⟨part, hpart, hppart⟩ := hp
    rcases hpart with rfl | rfl <;>
      obtain ⟨i, hi, rfl⟩ := List.mem_map.mp hppart <;>
      simp only [List.mem_range] at hi <;>
      simp only [List.mem_cons, List.not_mem_nil, or_false] at hqL
    · rcases hqL with rfl | rfl
      · omega
      · exact Nat.mod_lt _ (by omega)
    · rcases hqL with rfl | rfl
      · omega
      · exact Nat.mod_lt _ (by omega)
  · intro hq
    rcases Nat.even_or_odd q with ⟨i, hi⟩ | ⟨i, hi⟩
    · refine ⟨[2 * i, (2 * i + 1) % (2 * m)],
        ⟨([2 * i, (2 * i + 1) % (2 * m)], tid), ?_, rfl⟩, by simp; omega⟩
      simp only [pairsOf, fromSingleTermParts, List.mem_flatten, List.mem_cons,
        List.not_mem_nil, or_false]
      exact ⟨_, Or.inl rfl, List.mem_map.mpr ⟨i, List.mem_range.mpr (by omega), rfl⟩⟩
    · refine ⟨[2 * i + 1, (2 * i + 2) % (2 * m)],
        ⟨([2 * i + 1, (2 * i + 2) % (2 * m)], tid), ?_, rfl⟩, by simp; omega⟩
      simp only [pairsOf, fromSingleTermParts, List.mem_flatten, List.mem_cons,
        List.not_mem_nil, or_false]
      exact ⟨_, Or.inr rfl, List.mem_map.mpr ⟨i, List.mem_range.mpr (by omega), rfl⟩⟩

/-- For even ring size the bonds of `from_single_term` simplify: the even
part tiles `(0,1), (2,3), …` and the odd part tiles `(1,2), (3,4), …` with
the last bond wrapping to qubit 0. -/
theorem fromSingleTermParts_even (m : ℕ) (tid : TermId) (_hm : 0 < m) :
    fromSingleTermParts (2 * m) tid =
      [(List.range m).map (fun i => ([2 * i, 2 * i + 1], tid)),
       (List.range m).map
         (fun i => ([2 * i + 1, if i + 1 = m then 0 else 2 * i + 2], tid))] := by
  have h1 : 2 * m / 2 + 2 * m % 2 = m := by omega
  have h2 : 2 * m / 2 = m := by omega
  simp only [fromSingleTermParts]
  rw [h1, h2]
  congr 1
  · apply List.map_congr_left
    intro i hi
    rw [List.mem_range] at hi
    rw [Nat.mod_eq_of_lt (by omega)]
  · congr 1
    apply List.map_congr_left
    intro i hi
    rw [List.mem_range] at hi
    by_cases him : i + 1 = m
    · rw [if_pos him, show 2 * i + 2 = 2 * m from by omega, Nat.mod_self]
    · rw [if_neg him, Nat.mod_eq_of_lt (by omega)]

/-- C8: for every even ring size `2m` and two-qubit term `T`,
`from_single_term` succeeds and builds exactly two parts, the even part
placing `T` on the bonds `(0,1), (2,3), …` and the odd part on the
wrapping bonds `(1,2), (3,4), …, (2m-1, 0)`. -/
theorem from_single_term_even_ring (m : ℕ) (tid : TermId) (T : Hamiltonian)
    (env : TermId → TermObj) (hm : 0 < m) (henv : env tid = .ham T)
    (hT : T.nqubits = 2) :
    ∃ H, fromSingleTerm (2 * m) tid env = .ok H ∧
      H.parts = [(List.range m).map (fun i => ([2 * i, 2 * i + 1], tid)),
                 (List.range m).map
                   (fun i => ([2 * i + 1, if i + 1 = m then 0 else 2 * i + 2], tid))] ∧
      H.nqubits = 2 * m := by
  have hok : ∀ p ∈ pairsOf (fromSingleTermParts (2 * m) tid), ∃ h,
      env p.2 = .ham h ∧ p.1.length = h.nqubits ∧ h.dtype = T.dtype := by
    intro p hp
    obtain ⟨htid, hlen⟩ := fromSingleTermParts_pairs_shape (2 * m) tid p hp
    exact ⟨T, by rw [htid]; exact henv, by rw [hlen, hT], rfl⟩
  obtain ⟨d', hck⟩ := checkPairs_ok env T.dtype _ none (Or.inl rfl) hok
  refine ⟨_, mkLocal_ok (fromSingleTermParts (2 * m) tid) env d' hck, ?_, ?_⟩
  · exact fromSingleTermParts_even m tid hm
  · show (allTargets (fromSingleTermParts (2 * m) tid)).card = 2 * m
    rw [allTargets_fromSingleTermParts m tid hm, Finset.card_range]

/-- Closed witness for `from_single_term_even_ring`: the ring of four
qubits produces exactly `[{(0,1): T, (2,3): T}, {(1,2): T, (3,0): T}]`. -/
theorem from_single_term_even_ring_witness :
    ∃ H, fromSingleTerm (2 * 2) 0 (fun _ => .ham ringTerm) = .ok H ∧
      H.parts = [(List.range 2).map (fun i => ([2 * i, 2 * i + 1], 0)),
                 (List.range 2).map
                   (fun i => ([2 * i + 1, if i + 1 = 2 then 0 else 2 * i + 2], 0))] ∧
      H.nqubits = 2 * 2 :=
  from_single_term_even_ring 2 0 ringTerm (fun _ => .ham ringTerm)
    (by norm_num) rfl rfl

/-- A consistent cache makes `exp` return the backend value. -/
theorem exp_val (h : Hamiltonian) (a : ℚ) (hok : ExpOkD h) :
    (h.exp a).1 = calcExp h a := by
  rcases hc : h.expCache with _ | ⟨a0, r⟩
  · simp [Hamiltonian.exp, hc]
  · by_cases ha : a0 = a
    · subst ha
      simp only [Hamiltonian.exp, hc, if_pos rfl]
      exact hok a0 r hc
    · simp [Hamiltonian.exp, hc, ha]

/-- `exp` never changes the matrix of the object. -/
theorem exp_matrix (h : Hamiltonian) (a : ℚ) :
    (h.exp a).2.1.matrix = h.matrix := by
  rcases hc : h.expCache with _ | ⟨a0, r⟩
  · simp [Hamiltonian.exp, hc]
  · by_cases ha : a0 = a
    · subst ha; simp [Hamiltonian.exp, hc]
    · simp [Hamiltonian.exp, hc, ha]

/-- A freshly overwritten exponential slot is consistent. -/
theorem expOkD_update (h : Hamiltonian) (a : ℚ) :
    ExpOkD { h with expCache := some (a, calcExp h a) } := by
  intro a' r' hc'
  have hc2 : some (a, calcExp h a) = some (a', r') := hc'
  injection hc2 with hpair
  injection hpair with h1 h2
  subst h1; subst h2
  rfl

/-- `exp` preserves cache consistency. -/
theorem exp_ok (h : Hamiltonian) (a : ℚ) (hok : ExpOkD h) :
    ExpOkD (h.exp a).2.1 := by
  rcases hc : h.expCache with _ | ⟨a0, r⟩
  · have hh : (h.exp a).2.1 = { h with expCache := some (a, calcExp h a) } := by
      simp [Hamiltonian.exp, hc]
    rw [hh]; exact expOkD_update h a
  · by_cases ha : a0 = a
    · have hh : (h.exp a).2.1 = h := by subst ha; simp [Hamiltonian.exp, hc]
      rw [hh]; exact hok
    · have hh : (h.exp a).2.1 = { h with expCache := some (a, calcExp h a) } := by
        simp [Hamiltonian.exp, hc, ha]
      rw [hh]; exact expOkD_update h a

/-- `calcExp` only reads the matrix. -/
theorem calcExp_congr {h1 h2 : Hamiltonian} (hm : h1.matrix = h2.matrix) (a : ℚ) :
    calcExp h1 a = calcExp h2 a := by
  simp [calcExp, hm]

/-- A consistent environment makes `expOn` return the backend value. -/
theorem expOn_val (env : TermId → Hamiltonian) (tid : TermId) (a : ℚ)
    (hok : ExpOkE env) : (expOn env tid a).1 = calcExp (env tid) a := by
  simp only [expOn]
  exact exp_val (env tid) a (hok tid)

/-- `expOn` never changes any matrix in the environment. -/
theorem expOn_matrix (env : TermId → Hamiltonian) (tid : TermId) (a : ℚ) (t : TermId) :
    ((expOn env tid a).2.1 t).matrix = (env t).matrix := by
  simp only [expOn]
  by_cases ht : t = tid
  · subst ht; simp [exp_matrix]
  · simp [ht]

/-- `expOn` preserves environment cache consistency. -/
theorem expOn_ok (env : TermId → Hamiltonian) (tid : TermId) (a : ℚ)
    (hok : ExpOkE env) : ExpOkE (expOn env tid a).2.1 := by
  intro t
  simp only [expOn]
  by_cases ht : t = tid
  · subst ht; simp only [if_pos rfl]; exact exp_ok (env t) a (hok t)
  · simp only [if_neg ht]; exact hok t

/-- `mkGates` only reads the matrices of the environment. -/
theorem mkGates_congr {env1 env2 : TermId → Hamiltonian}
    (hm : ∀ t, (env1 t).matrix = (env2 t).matrix) (a : ℚ) :
    ∀ (n : ℕ) (seq : List (List ℕ × TermId)),
      mkGates env1 a n seq = mkGates env2 a n seq := by
  intro n seq
  induction seq generalizing n with
  | nil => rfl
  | cons p rest ih =>
      simp only [mkGates, ih]
      rw [calcExp_congr (hm p.2) a]

/-- Closed form of a `_create_circuit` sweep: the circuit gains exactly the
gates of the pair sequence in order, `term_gates` is extended accordingly,
and the term environment keeps its matrices and cache consistency. -/
theorem buildSweep_spec (a : ℚ) (seq : List (List ℕ × TermId)) :
    ∀ (s : BSt), ExpOkE s.env →
      (buildSweep a s seq).gates = s.gates ++ mkGates s.env a s.next seq ∧
      (buildSweep a s seq).tg = tgSeq s.tg s.next seq ∧
      (buildSweep a s seq).next = s.next + seq.length ∧
      (∀ t, ((buildSweep a s seq).env t).matrix = (s.env t).matrix) ∧
      ExpOkE (buildSweep a s seq).env := by
  induction seq with
  | nil => intro s hok; simp [buildSweep, mkGates, tgSeq, hok]
  | cons p rest ih =>
      intro s hok
      have hstep : buildSweep a s (p :: rest) = buildSweep a (addGateStep a s p) rest := by
        simp [buildSweep]
      have henv : (addGateStep a s p).env = (expOn s.env p.2 a).2.1 := rfl
      have hokA : ExpOkE (addGateStep a s p).env := by
        rw [henv]; exact expOn_ok s.env p.2 a hok
      obtain ⟨hg, htg, hn, hmats, hok'⟩ := ih (addGateStep a s p) hokA
      have hmat1 : ∀ t, ((addGateStep a s p).env t).matrix = (s.env t).matrix := by
        intro t; rw [henv]; exact expOn_matrix s.env p.2 a t
      refine ⟨?_, ?_, ?_, ?_, ?_⟩
      · have hgates : (addGateStep a s p).gates =
            s.gates ++ [⟨s.next, p.1, p.2, calcExp (s.env p.2) a⟩] := by
          simp only [addGateStep]
          rw [expOn_val s.env p.2 a hok]
        have hnext : (addGateStep a s p).next = s.next + 1 := rfl
        rw [hstep, hg, mkGates_congr hmat1 a, hgates, hnext]
        simp [mkGates, List.append_assoc]
      · rw [hstep, htg]
        rfl
      · have hnext : (addGateStep a s p).next = s.next + 1 := rfl
        rw [hstep, hn, hnext]
        simp [List.length_cons]
        omega
      · intro t
        rw [hstep, hmats t, hmat1 t]
      · rw [hstep]; exact hok'

/-- Forgetting gate identities, a sweep emits exactly one unitary per
`(targets, term)` pair, in order, parameterized by the term's backend
exponential. -/
theorem mkGates_forget (env : TermId → Hamiltonian) (a : ℚ) :
    ∀ (n : ℕ) (seq : List (List ℕ × TermId)),
      (mkGates env a n seq).map (fun g => (g.targets, g.param)) =
        seq.map (fun p => (p.1, calcExp (env p.2) a)) := by
  intro n seq
  induction seq generalizing n with
  | nil => rfl
  | cons p rest ih => simp only [mkGates, List.map_cons, ih]

/-- Every gate of a sweep is parameterized by the exponential of its own
term. -/
theorem mkGates_param (env : TermId → Hamiltonian) (a : ℚ) :
    ∀ (n : ℕ) (seq : List (List ℕ × TermId)),
      ∀ g ∈ mkGates env a n seq, g.param = calcExp (env g.tid) a := by
  intro n seq
  induction seq generalizing n with
  | nil => intro g hg; simp [mkGates] at hg
  | cons p rest ih =>
      intro g hg
      rcases List.mem_cons.mp hg with rfl | hg
      · rfl
      · exact ih (n + 1) g hg

/-- Gate identities of a sweep lie in the fresh id range. -/
theorem mkGates_gid_bound (env : TermId → Hamiltonian) (a : ℚ) :
    ∀ (n : ℕ) (seq : List (List ℕ × TermId)),
      ∀ g ∈ mkGates env a n seq, n ≤ g.gid ∧ g.gid < n + seq.length := by
  intro n seq
  induction seq generalizing n with
  | nil => intro g hg; simp [mkGates] at hg
  | cons p rest ih =>
      intro g hg
      rcases List.mem_cons.mp hg with rfl | hg
      · simp
      · have := ih (n + 1) g hg
        simp only [List.length_cons]
        omega

/-- Gate identities of a sweep are pairwise distinct. -/
theorem mkGates_gid_nodup (env : TermId → Hamiltonian) (a : ℚ) :
    ∀ (n : ℕ) (seq : List (List ℕ × TermId)),
      ((mkGates env a n seq).map (fun g => g.gid)).Nodup := by
  intro n seq
  induction seq generalizing n with
  | nil => simp [mkGates]
  | cons p rest ih =>
      simp only [mkGates, List.map_cons, List.nodup_cons]
      refine ⟨?_, ih (n + 1)⟩
      intro hmem
      obtain ⟨g, hg, hgid⟩ := List.mem_map.mp hmem
      have := mkGates_gid_bound env a (n + 1) rest g hg
      omega

/-- C1: the first `trotter_circuit(dt)` call builds the circuit whose gate
sequence is one local unitary `exp(-i*term*dt/2)` on the term's qubit
subset for every `(subset, term)` pair in forward part order, followed by
one such gate for every pair with the parts taken in reverse order. -/
theorem trotter_circuit_first_call (H : LocalHamiltonian) (dt : ℚ)
    (h1 : H.dtQ = none) (h2 : H.circ = none) (h4 : ExpOkE H.env) :
    ∃ gs, (H.circuit dt).circ = some gs ∧
      gs.map (fun g => (g.targets, g.param)) =
        (pairsOf H.parts ++ pairsOf H.parts.reverse).map
          (fun p => (p.1, calcExp (H.env p.2) (dt / 2))) := by
  have hne : ¬ H.dtQ = some dt := by rw [h1]; simp
  simp only [LocalHamiltonian.circuit, if_neg hne, h2]
  obtain ⟨hg, _, _, _, _⟩ :=
    buildSweep_spec (dt / 2) (trotterSeq H.parts) ⟨H.env, H.termGates, [], 0⟩ h4
  refine ⟨_, rfl, ?_⟩
  show (buildSweep (dt / 2) ⟨H.env, H.termGates, [], 0⟩ (trotterSeq H.parts)).gates.map
      (fun g => (g.targets, g.param)) = _
  rw [hg]
  simp only [List.nil_append]
  exact mkGates_forget H.env (dt / 2) 0 (trotterSeq H.parts)

/-- The sample environment has consistent (empty) exponential caches. -/
theorem trotterSample_expOk : ExpOkE trotterSample.env := by
  intro tid a r hc
  simp [trotterSample] at hc

/-- Closed witness for `trotter_circuit_first_call`: the sample circuit at
`dt = 1` has the forward-then-reversed-parts gate sequence. -/
theorem trotter_circuit_first_call_witness :
    ∃ gs, (trotterSample.circuit 1).circ = some gs ∧
      gs.map (fun g => (g.targets, g.param)) =
        (pairsOf trotterSample.parts ++ pairsOf trotterSample.parts.reverse).map
          (fun p => (p.1, calcExp (trotterSample.env p.2) (1 / 2))) :=
  trotter_circuit_first_call trotterSample 1 rfl rfl trotterSample_expOk

/-- Closed witness for `from_single_term_part_disjointness`: the violation
at the odd ring size 3 and disjointness at the even ring size 4. -/
theorem from_single_term_part_disjointness_witness :
    (([0, 1], 0) ∈ [([0, 1], 0), ([2, 0], 0)] ∧
      ([3 - 1, 0], 0) ∈ [([0, 1], 0), ([2, 0], 0)] ∧
      ¬ partKeysDisjoint [([0, 1], 0), ([2, 0], 0)]) ∧
    (partKeysDisjoint [([0, 1], 0), ([2, 3], 0)] ∧
      partKeysDisjoint [([1, 2], 0), ([3, 0], 0)]) :=
  ⟨(from_single_term_part_disjointness 3 0 _ _ rfl).1 ⟨1, by norm_num⟩ (by norm_num),
   (from_single_term_part_disjointness 4 0 _ _ rfl).2 ⟨2, by norm_num⟩⟩

/-- `tgAdd` extends exactly the entry of the given term. -/
theorem lookupTG_tgAdd (tg : List (TermId × List ℕ)) (t : TermId) (g : ℕ)
    (t' : TermId) :
    lookupTG (tgAdd tg t g) t' =
      if t' = t then lookupTG tg t' ++ [g] else lookupTG tg t' := by
  induction tg with
  | nil =>
      by_cases h : t' = t
      · subst h; simp [tgAdd, lookupTG]
      · simp [tgAdd, lookupTG, h, Ne.symm h]
  | cons e rest ih =>
      obtain ⟨te, gse⟩ := e
      by_cases he : te = t
      · subst he
        by_cases h : t' = te
        · subst h; simp [tgAdd, lookupTG]
        · simp [tgAdd, lookupTG, h, Ne.symm h]
      · by_cases h2 : te = t'
        · subst h2
          simp [tgAdd, lookupTG, he, Ne.symm he]
        · simp [tgAdd, lookupTG, he, h2, ih]

/-- `tgAdd` keeps the key list or appends the new key at the end. -/
theorem tgAdd_keys (tg : List (TermId × List ℕ)) (t : TermId) (g : ℕ) :
    (tgAdd tg t g).map Prod.fst =
      if t ∈ tg.map Prod.fst then tg.map Prod.fst
      else tg.map Prod.fst ++ [t] := by
  induction tg with
  | nil => simp [tgAdd]
  | cons e rest ih =>
      obtain ⟨te, gse⟩ := e
      by_cases he : te = t
      · subst he; simp [tgAdd]
      · simp only [tgAdd, if_neg he, List.map_cons, ih]
        by_cases hmem : t ∈ rest.map Prod.fst
        · rw [if_pos hmem, if_pos (by simp [hmem])]
        · rw [if_neg hmem, if_neg ?hno, List.cons_append]
          case hno =>
            simp only [List.mem_cons]
            push_neg
            exact ⟨Ne.symm he, hmem⟩

/-- `tgAdd` preserves key distinctness. -/
theorem tgAdd_keys_nodup (tg : List (TermId × List ℕ)) (t : TermId) (g : ℕ)
    (hnd : (tg.map Prod.fst).Nodup) : ((tgAdd tg t g).map Prod.fst).Nodup := by
  rw [tgAdd_keys]
  by_cases hmem : t ∈ tg.map Prod.fst
  · rw [if_pos hmem]; exact hnd
  · rw [if_neg hmem]
    simp [List.nodup_append, hnd, hmem]

/-- One gate creation step preserves `term_gates` exactness. -/
theorem tgexact_step (gates : List GateRec) (tg : List (TermId × List ℕ))
    (hTG : TGexact gates tg) (ts : List ℕ) (tid : TermId) (n : ℕ) (v : ExpVal) :
    TGexact (gates ++ [⟨n, ts, tid, v⟩]) (tgAdd tg tid n) := by
  obtain ⟨hnd, hlk⟩ := hTG
  refine ⟨tgAdd_keys_nodup tg tid n hnd, ?_⟩
  intro t
  rw [lookupTG_tgAdd, List.filter_append, List.map_append, ← hlk t]
  by_cases ht : t = tid
  · subst ht
    simp [List.filter]
  · rw [if_neg ht]
    have hfil : (([⟨n, ts, tid, v⟩] : List GateRec).filter (fun g => g.tid = t)) = [] := by
      simp [List.filter, Ne.symm ht]
    rw [hfil]
    simp

/-- A whole creation sweep preserves `term_gates` exactness. -/
theorem tgSeq_exact (env : TermId → Hamiltonian) (a : ℚ) :
    ∀ (seq : List (List ℕ × TermId)) (gates : List GateRec)
      (tg : List (TermId × List ℕ)) (n : ℕ),
      TGexact gates tg →
      TGexact (gates ++ mkGates env a n seq) (tgSeq tg n seq) := by
  intro seq
  induction seq with
  | nil => intro gates tg n hTG; simpa [mkGates, tgSeq] using hTG
  | cons p rest ih =>
      intro gates tg n hTG
      have hstep := tgexact_step gates tg hTG p.1 p.2 n (calcExp (env p.2) a)
      have := ih (gates ++ [⟨n, p.1, p.2, calcExp (env p.2) a⟩])
        (tgAdd tg p.2 n) (n + 1) hstep
      simpa [mkGates, tgSeq, List.append_assoc] using this

/-- Key-distinct `term_gates` dicts look their own entries up exactly. -/
theorem lookupTG_entry (tg : List (TermId × List ℕ))
    (hnd : (tg.map Prod.fst).Nodup) :
    ∀ e ∈ tg, lookupTG tg e.1 = e.2 := by
  induction tg with
  | nil => intro e he; simp at he
  | cons f rest ih =>
      intro e he
      obtain ⟨tf, gsf⟩ := f
      simp only [List.map_cons, List.nodup_cons] at hnd
      rcases List.mem_cons.mp he with rfl | he
      · simp [lookupTG]
      · have hne : tf ≠ e.1 := by
          intro hh
          exact hnd.1 (by rw [hh]; exact List.mem_map.mpr ⟨e, he, rfl⟩)
        simp only [lookupTG, if_neg hne]
        exact ih hnd.2 e he

/-- Terms without a `term_gates` entry look up to the empty set. -/
theorem lookupTG_not_mem (tg : List (TermId × List ℕ)) (t : TermId)
    (hmem : t ∉ tg.map Prod.fst) : lookupTG tg t = [] := by
  induction tg with
  | nil => rfl
  | cons f rest ih =>
      simp only [List.map_cons, List.mem_cons] at hmem
      push_neg at hmem
      simp only [lookupTG, if_neg (Ne.symm hmem.1)]
      exact ih hmem.2

/-- First-match lookup distributes over appending update lists. -/
theorem lookupUpd_append (u1 u2 : List (ℕ × ExpVal)) (gid : ℕ) :
    lookupUpd (u1 ++ u2) gid =
      match lookupUpd u1 gid with
      | some v => some v
      | none => lookupUpd u2 gid := by
  induction u1 with
  | nil => simp [lookupUpd]
  | cons e rest ih =>
      by_cases he : e.1 = gid
      · simp [lookupUpd, he]
      · simpa [lookupUpd, he] using ih

/-- Lookup in a constant-valued update list. -/
theorem lookupUpd_constmap (gs : List ℕ) (v : ExpVal) (gid : ℕ) :
    lookupUpd (gs.map (fun g => (g, v))) gid =
      if gid ∈ gs then some v else none := by
  induction gs with
  | nil => simp [lookupUpd]
  | cons g rest ih =>
      by_cases hg : g = gid
      · subst hg; simp [lookupUpd]
      · simp only [List.map_cons, lookupUpd, if_neg hg, ih, List.mem_cons]
        by_cases hm : gid ∈ rest
        · simp [hm]
        · simp [hm, Ne.symm hg]

/-- The parameter update assembled by `set_parameters` assigns every
recorded gate the fresh exponential of its own term. -/
theorem lookupUpd_flatten (gates : List GateRec) (a : ℚ)
    (env : TermId → Hamiltonian)
    (hnd : (gates.map (fun g => g.gid)).Nodup) (g : GateRec) (hg : g ∈ gates) :
    ∀ (tg : List (TermId × List ℕ)),
      (∀ e ∈ tg, e.2 = (gates.filter (fun x => x.tid = e.1)).map (fun x => x.gid)) →
      g.tid ∈ tg.map Prod.fst →
      lookupUpd ((tg.map (fun e => e.2.map (fun x => (x, calcExp (env e.1) a)))).flatten)
          g.gid = some (calcExp (env g.tid) a) := by
  intro tg
  induction tg with
  | nil => intro _ hmem; simp at hmem
  | cons e rest ih =>
      intro hent hmem
      have hent_e := hent e (List.mem_cons_self _ _)
      simp only [List.map_cons, List.flatten_cons]
      rw [lookupUpd_append]
      by_cases ht : e.1 = g.tid
      · have hin : g.gid ∈ e.2 := by
          rw [hent_e]
          refine List.mem_map.mpr ⟨g, List.mem_filter.mpr ⟨hg, ?_⟩, rfl⟩
          simp [ht]
        rw [lookupUpd_constmap, if_pos hin, ht]
      · have hout : g.gid ∉ e.2 := by
          rw [hent_e]
          intro hmem'
          obtain ⟨g', hg', hgid⟩ := List.mem_map.mp hmem'
          rw [List.mem_filter] at hg'
          have : g' = g := List.inj_on_of_nodup_map hnd hg'.1 hg hgid
          subst this
          have hgt : g'.tid = e.1 := by simpa using hg'.2
          exact ht hgt.symm
        rw [lookupUpd_constmap, if_neg hout]
        have hmem' : g.tid ∈ rest.map Prod.fst := by
          simp only [List.map_cons, List.mem_cons] at hmem
          rcases hmem with hh | hh
          · exact absurd hh.symm ht
          · exact hh
        exact ih (fun e' he' => hent e' (List.mem_cons_of_mem _ he')) hmem'

/-- The updated-value list emitted by the `set_parameters` comprehension:
per `term_gates` entry, its gate ids paired with the fresh exponential of
its term. -/
theorem expList_spec (a : ℚ) (tid : TermId) :
    ∀ (gs : List ℕ) (env : TermId → Hamiltonian), ExpOkE env →
      (expList a tid env gs).2 = gs.map (fun g => (g, calcExp (env tid) a)) ∧
      (∀ u, ((expList a tid env gs).1 u).matrix = (env u).matrix) ∧
      ExpOkE (expList a tid env gs).1 := by
  intro gs
  induction gs with
  | nil => intro env hok; exact ⟨rfl, fun u => rfl, hok⟩
  | cons g rest ih =>
      intro env hok
      obtain ⟨hsnd, hmat, hok'⟩ := ih (expOn env tid a).2.1 (expOn_ok env tid a hok)
      refine ⟨?_, ?_, hok'⟩
      · show (g, (expOn env tid a).1) :: (expList a tid (expOn env tid a).2.1 rest).2 = _
        rw [hsnd, expOn_val env tid a hok]
        simp only [List.map_cons]
        congr 1
        apply List.map_congr_left
        intro x _
        rw [calcExp_congr (expOn_matrix env tid a tid) a]
      · intro u
        show ((expList a tid (expOn env tid a).2.1 rest).1 u).matrix = _
        rw [hmat u, expOn_matrix env tid a u]

/-- Closed form of the full `set_parameters` comprehension: concatenation
of the per-entry update lists, with the term environment keeping its
matrices and cache consistency. -/
theorem reparamSweep_spec (a : ℚ) :
    ∀ (tg : List (TermId × List ℕ)) (env : TermId → Hamiltonian), ExpOkE env →
      (reparamSweep a env tg).2 =
        (tg.map (fun e => e.2.map (fun g => (g, calcExp (env e.1) a)))).flatten ∧
      (∀ u, ((reparamSweep a env tg).1 u).matrix = (env u).matrix) ∧
      ExpOkE (reparamSweep a env tg).1 := by
  intro tg
  induction tg with
  | nil => intro env hok; exact ⟨rfl, fun u => rfl, hok⟩
  | cons e rest ih =>
      intro env hok
      obtain ⟨h1, hm1, hok1⟩ := expList_spec a e.1 e.2 env hok
      obtain ⟨h2, hm2, hok2⟩ := ih (expList a e.1 env e.2).1 hok1
      refine ⟨?_, ?_, hok2⟩
      · show (expList a e.1 env e.2).2 ++ (reparamSweep a (expList a e.1 env e.2).1 rest).2 = _
        rw [h1, h2]
        simp only [List.map_cons, List.flatten_cons]
        congr 1
        congr 1
        apply List.map_congr_left
        intro e' _
        apply List.map_congr_left
        intro g _
        rw [calcExp_congr (hm1 e'.1) a]
      · intro u
        show ((reparamSweep a (expList a e.1 env e.2).1 rest).1 u).matrix = _
        rw [hm2 u, hm1 u]

/-- `set_parameters` with the comprehension update: every gate of the
circuit receives the fresh exponential of its own generating term. -/
theorem applyUpds_reparam (gates : List GateRec) (tg : List (TermId × List ℕ))
    (env : TermId → Hamiltonian) (a : ℚ) (hTG : TGexact gates tg)
    (hnd : (gates.map (fun g => g.gid)).Nodup) (hok : ExpOkE env) :
    applyUpds gates (reparamSweep a env tg).2 =
      gates.map (fun g => { g with param := calcExp (env g.tid) a }) := by
  obtain ⟨hknd, hlk⟩ := hTG
  obtain ⟨hupds, _, _⟩ := reparamSweep_spec a tg env hok
  rw [applyUpds, hupds]
  apply List.map_congr_left
  intro g hg
  have hent : ∀ e ∈ tg, e.2 = (gates.filter (fun x => x.tid = e.1)).map (fun x => x.gid) :=
    fun e he => by rw [← hlk e.1]; exact (lookupTG_entry tg hknd e he).symm
  have hmem : g.tid ∈ tg.map Prod.fst := by
    by_contra hcon
    have h0 := lookupTG_not_mem tg g.tid hcon
    rw [hlk g.tid] at h0
    have : g.gid ∈ (gates.filter (fun x => x.tid = g.tid)).map (fun x => x.gid) :=
      List.mem_map.mpr ⟨g, List.mem_filter.mpr ⟨hg, by simp⟩, rfl⟩
    rw [h0] at this
    simp at this
  rw [lookupUpd_flatten gates a env hnd g hg tg hent hmem]

/-- `circuit(dt)` with the `dt` of the immediately preceding call is a
no-op. -/
theorem circuit_same_dt (H : LocalHamiltonian) (dt : ℚ) (h : H.dtQ = some dt) :
    H.circuit dt = H := by
  simp [LocalHamiltonian.circuit, h]

/-- `circuit(dt)` on a fresh object runs `_create_circuit`. -/
theorem circuit_build (H : LocalHamiltonian) (dt : ℚ)
    (hne : ¬ H.dtQ = some dt) (hc : H.circ = none) :
    H.circuit dt =
      { H with
        dtQ := some dt,
        env := (buildSweep (dt / 2) ⟨H.env, H.termGates, [], 0⟩ (trotterSeq H.parts)).env,
        termGates := (buildSweep (dt / 2) ⟨H.env, H.termGates, [], 0⟩ (trotterSeq H.parts)).tg,
        circ := some (buildSweep (dt / 2) ⟨H.env, H.termGates, [], 0⟩ (trotterSeq H.parts)).gates } := by
  simp [LocalHamiltonian.circuit, hne, hc]

/-- `circuit(dt)` on a built object pushes new parameters through
`set_parameters` without touching `term_gates`. -/
theorem circuit_reparam (H : LocalHamiltonian) (dt : ℚ) (gates : List GateRec)
    (hne : ¬ H.dtQ = some dt) (hc : H.circ = some gates) :
    H.circuit dt =
      { H with
        dtQ := some dt,
        env := (reparamSweep (dt / 2) H.env H.termGates).1,
        circ := some (applyUpds gates (reparamSweep (dt / 2) H.env H.termGates).2) } := by
  simp [LocalHamiltonian.circuit, hne, hc]

/-- A parameter-only rewrite of the circuit preserves `term_gates`
exactness. -/
theorem TGexact_param_map (gates : List GateRec) (tg : List (TermId × List ℕ))
    (f : GateRec → GateRec) (hgid : ∀ g, (f g).gid = g.gid)
    (htid : ∀ g, (f g).tid = g.tid) (hTG : TGexact gates tg) :
    TGexact (gates.map f) tg := by
  obtain ⟨hnd, hlk⟩ := hTG
  refine ⟨hnd, ?_⟩
  intro t
  rw [hlk t, List.filter_map, List.map_map]
  have h1 : gates.filter ((fun (g : GateRec) => decide (g.tid = t)) ∘ f) =
      gates.filter (fun g => decide (g.tid = t)) := by
    apply List.filter_congr
    intro g _
    simp only [Function.comp_apply, htid g]
  rw [h1]
  apply List.map_congr_left
  intro g _
  simp only [Function.comp_apply, hgid g]

/-- C2: after the first `trotter_circuit(dt1)` call, a call with a
different `dt2` creates no gates and keeps the topology (the new circuit is
the old gate list with only parameters rewritten), pushing
`exp(-i*term*dt2/2)` into every gate placement generated from each term; a
call with the immediately preceding `dt` returns the object unchanged; and
the sequence `dt1, dt2, dt1` returns exactly the first call's gate list —
same gate identities, placements and parameters. -/
theorem trotter_reparam_cache (H : LocalHamiltonian) (dt1 dt2 : ℚ)
    (h1 : H.dtQ = none) (h2 : H.circ = none) (h3 : H.termGates = [])
    (h4 : ExpOkE H.env) (hne : dt1 ≠ dt2) :
    ∃ g1 g2,
      (H.circuit dt1).circ = some g1 ∧
      (H.circuit dt1).circuit dt1 = H.circuit dt1 ∧
      ((H.circuit dt1).circuit dt2).circ = some g2 ∧
      g2 = g1.map (fun g => { g with param := calcExp (H.env g.tid) (dt2 / 2) }) ∧
      g2.map (fun g => (g.gid, g.targets)) = g1.map (fun g => (g.gid, g.targets)) ∧
      (((H.circuit dt1).circuit dt2).circuit dt1).circ = some g1 := by
  have hne1 : ¬ H.dtQ = some dt1 := by rw [h1]; simp
  have hC1 := circuit_build H dt1 hne1 h2
  obtain ⟨hg, htg, _, hmats, hok1⟩ :=
    buildSweep_spec (dt1 / 2) (trotterSeq H.parts) ⟨H.env, H.termGates, [], 0⟩ h4
  set b := buildSweep (dt1 / 2) ⟨H.env, H.termGates, [], 0⟩ (trotterSeq H.parts) with hbdef
  have hg' : b.gates = mkGates H.env (dt1 / 2) 0 (trotterSeq H.parts) := by
    rw [hg]; simp
  have htg' : b.tg = tgSeq [] 0 (trotterSeq H.parts) := by
    rw [htg]
    show tgSeq H.termGates 0 (trotterSeq H.parts) = _
    rw [h3]
  have hTG1 : TGexact b.gates b.tg := by
    rw [hg', htg']
    have hbase : TGexact [] [] := ⟨by simp, by intro t; simp [lookupTG]⟩
    have := tgSeq_exact H.env (dt1 / 2) (trotterSeq H.parts) [] [] 0 hbase
    simpa using this
  have hnd1 : (b.gates.map (fun g => g.gid)).Nodup := by
    rw [hg']; exact mkGates_gid_nodup H.env (dt1 / 2) 0 _
  have henvmat : ∀ t, (b.env t).matrix = (H.env t).matrix := by
    intro t; have := hmats t; simpa using this
  have hsame : (H.circuit dt1).circuit dt1 = H.circuit dt1 :=
    circuit_same_dt _ dt1 (by rw [hC1])
  have hne2 : ¬ (H.circuit dt1).dtQ = some dt2 := by
    rw [hC1]
    intro hh
    exact hne (by simpa using hh)
  have hC2 := circuit_reparam (H.circuit dt1) dt2 b.gates hne2 (by rw [hC1])
  have hC1env : (H.circuit dt1).env = b.env := by rw [hC1]
  have hC1tg : (H.circuit dt1).termGates = b.tg := by rw [hC1]

  rw [hC1env, hC1tg] at hC2
  have happly : applyUpds b.gates (reparamSweep (dt2 / 2) b.env b.tg).2 =
      b.gates.map (fun g => { g with param := calcExp (H.env g.tid) (dt2 / 2) }) := by
    rw [applyUpds_reparam b.gates b.tg b.env (dt2 / 2) hTG1 hnd1 hok1]
    apply List.map_congr_left
    intro g _
    rw [calcExp_congr (henvmat g.tid) (dt2 / 2)]
  obtain ⟨_, hm2, hok2⟩ := reparamSweep_spec (dt2 / 2) b.tg b.env hok1
  have hTG2 : TGexact (applyUpds b.gates (reparamSweep (dt2 / 2) b.env b.tg).2) b.tg := by
    rw [happly]
    exact TGexact_param_map b.gates b.tg _ (fun g => rfl) (fun g => rfl) hTG1
  have hnd2 : ((applyUpds b.gates (reparamSweep (dt2 / 2) b.env b.tg).2).map
      (fun g => g.gid)).Nodup := by
    rw [happly, List.map_map]
    exact hnd1
  have hne3 : ¬ ((H.circuit dt1).circuit dt2).dtQ = some dt1 := by
    rw [hC2]
    intro hh
    have hh2 : some dt2 = some dt1 := hh
    exact hne (Option.some.inj hh2).symm
  have hC3 := circuit_reparam ((H.circuit dt1).circuit dt2) dt1
    (applyUpds b.gates (reparamSweep (dt2 / 2) b.env b.tg).2) hne3 (by rw [hC2])
  have hC2env : ((H.circuit dt1).circuit dt2).env =
      (reparamSweep (dt2 / 2) b.env b.tg).1 := by rw [hC2]
  have hC2tg : ((H.circuit dt1).circuit dt2).termGates = b.tg := by
    rw [hC2]
  rw [hC2env, hC2tg] at hC3
  have hm2' : ∀ t, ((reparamSweep (dt2 / 2) b.env b.tg).1 t).matrix = (H.env t).matrix :=
    fun t => (hm2 t).trans (henvmat t)
  have happly3 : applyUpds (applyUpds b.gates (reparamSweep (dt2 / 2) b.env b.tg).2)
      (reparamSweep (dt1 / 2) (reparamSweep (dt2 / 2) b.env b.tg).1 b.tg).2 = b.gates := by
    rw [applyUpds_reparam _ b.tg _ (dt1 / 2) hTG2 hnd2 hok2]
    rw [happly, List.map_map]
    refine (List.map_congr_left ?_).trans (List.map_id b.gates)
    intro g hgm
    have hparam : g.param = calcExp (H.env g.tid) (dt1 / 2) :=
      mkGates_param H.env (dt1 / 2) 0 (trotterSeq H.parts) g
        (by rw [← hg']; exact hgm)
    cases g with
    | mk gid targets tid param =>
        simp only [Function.comp_apply, id_eq, GateRec.mk.injEq, true_and]
        rw [calcExp_congr (hm2' tid) (dt1 / 2)]
        exact hparam.symm
  refine ⟨b.gates,
    b.gates.map (fun g => { g with param := calcExp (H.env g.tid) (dt2 / 2) }),
    by rw [hC1], hsame, ?_, rfl, ?_, ?_⟩
  · rw [hC2]
    show some (applyUpds b.gates (reparamSweep (dt2 / 2) b.env b.tg).2) = _
    rw [happly]
  · rw [List.map_map]
    rfl
  · rw [hC3]
    show some (applyUpds (applyUpds b.gates (reparamSweep (dt2 / 2) b.env b.tg).2)
      (reparamSweep (dt1 / 2) (reparamSweep (dt2 / 2) b.env b.tg).1 b.tg).2) = _
    rw [happly3]

/-- Scaling one term scales its embedding. -/
theorem embedEntry_mul (n : ℕ) (ts : List ℕ) (t : Hamiltonian) (o : Cq)
    (i j : ℕ) : embedEntry n ts (t.mul o) i j = o * embedEntry n ts t i j := by
  simp only [embedEntry, Hamiltonian.mul]
  ring

/-- C3: scalar multiplication of a LocalHamiltonian keeps the part
structure and qubit-subset assignments, replaces each distinct term (by
identity) with the scaled term exactly once — a term shared by several
sites stays one shared object — and the dense reconstruction of the
product is the scalar times the original reconstruction. -/
theorem local_hamiltonian_mul (H : LocalHamiltonian) (o : Cq)
    (hn : H.nqubits = (allTargets H.parts).card) :
    (H.mul o).parts = H.parts ∧
    (∀ tid, (H.mul o).env tid = (H.env tid).mul o) ∧
    (∀ i j, denseEntry (H.mul o) i j = o * denseEntry H i j) := by
  refine ⟨rfl, fun tid => rfl, ?_⟩
  intro i j
  simp only [denseEntry]
  have hq : (H.mul o).nqubits = H.nqubits := by rw [hn]; rfl
  show ((pairsOf H.parts).map
      (fun p => embedEntry (H.mul o).nqubits p.1 ((H.env p.2).mul o) i j)).sum = _
  rw [hq]
  rw [List.map_congr_left (g := fun p => o * embedEntry H.nqubits p.1 (H.env p.2) i j)
    (fun p _ => embedEntry_mul H.nqubits p.1 (H.env p.2) o i j)]
  exact List.sum_map_mul_left _ _ _

/-- Closed witness for `local_hamiltonian_mul`: the one-qubit sample scaled
by `2 + i`. -/
theorem local_hamiltonian_mul_witness :
    ((oneQubitLocal.mul ⟨2, 1⟩).parts = oneQubitLocal.parts ∧
    (∀ tid, (oneQubitLocal.mul ⟨2, 1⟩).env tid = (oneQubitLocal.env tid).mul ⟨2, 1⟩) ∧
    (∀ i j, denseEntry (oneQubitLocal.mul ⟨2, 1⟩) i j =
      (⟨2, 1⟩ : Cq) * denseEntry oneQubitLocal i j)) :=
  local_hamiltonian_mul oneQubitLocal ⟨2, 1⟩ (by simp [oneQubitLocal]; rfl)

/-- Closed witness for `trotter_reparam_cache`: the sample circuit under
the call sequence `dt = 1, 2, 1`. -/
theorem trotter_reparam_cache_witness :
    ∃ g1 g2,
      (trotterSample.circuit 1).circ = some g1 ∧
      (trotterSample.circuit 1).circuit 1 = trotterSample.circuit 1 ∧
      ((trotterSample.circuit 1).circuit 2).circ = some g2 ∧
      g2 = g1.map (fun g => { g with param := calcExp (trotterSample.env g.tid) (2 / 2) }) ∧
      g2.map (fun g => (g.gid, g.targets)) = g1.map (fun g => (g.gid, g.targets)) ∧
      (((trotterSample.circuit 1).circuit 2).circuit 1).circ = some g1 :=
  trotter_reparam_cache trotterSample 1 2 rfl rfl rfl trotterSample_expOk
    (by norm_num)

/-- Bits are Booleans: `bitAt` in terms of `Nat.testBit` at the mirrored
position (qubit 0 is the most significant axis). -/
theorem bitAt_eq_testBit (n q i : ℕ) : bitAt n q i = (i.testBit (n - 1 - q)).toNat := by
  rw [bitAt, Nat.testBit_to_div_mod]
  rcases Nat.mod_two_eq_zero_or_one (i / 2 ^ (n - 1 - q)) with h | h <;> simp [h]

/-- `bitAt` is a bit. -/
theorem bitAt_lt_two (n q i : ℕ) : bitAt n q i < 2 := Nat.mod_lt _ (by norm_num)

/-- Quotient `testBit` shift. -/
theorem testBit_div_pow (x n i : ℕ) : (x / 2 ^ n).testBit i = x.testBit (n + i) := by
  rw [← Nat.shiftRight_eq_div_pow, Nat.testBit_shiftRight]

/-- Equality of low-bit blocks is equality of remainders. -/
theorem mod_pow_eq_iff_testBit (i j e : ℕ) :
    i % 2 ^ e = j % 2 ^ e ↔ ∀ p < e, i.testBit p = j.testBit p := by
  constructor
  · intro h p hp
    have h1 := congrArg (fun x => x.testBit p) h
    simpa [Nat.testBit_mod_two_pow, hp] using h1
  · intro h
    apply Nat.eq_of_testBit_eq
    intro p
    by_cases hp : p < e
    · simp [Nat.testBit_mod_two_pow, hp, h p hp]
    · simp [Nat.testBit_mod_two_pow, hp]

/-- Equality of high-bit blocks is equality of quotients. -/
theorem div_pow_eq_iff_testBit (i j k : ℕ) :
    i / 2 ^ k = j / 2 ^ k ↔ ∀ p, k ≤ p → i.testBit p = j.testBit p := by
  constructor
  · intro h p hp
    have h1 := congrArg (fun x => x.testBit (p - k)) h
    simp only at h1
    rw [testBit_div_pow, testBit_div_pow, Nat.add_sub_cancel' hp] at h1
    exact h1
  · intro h
    apply Nat.eq_of_testBit_eq
    intro p
    rw [testBit_div_pow, testBit_div_pow]
    exact h (k + p) (Nat.le_add_right k p)

/-- The big-endian bit encoding is injective given the per-position bit
values. -/
theorem foldl_bits_eq_iff (b1 b2 : ℕ → ℕ) (hb1 : ∀ q, b1 q < 2)
    (hb2 : ∀ q, b2 q < 2) :
    ∀ (L : List ℕ) (A B : ℕ),
      (L.foldl (fun acc q => 2 * acc + b1 q) A =
        L.foldl (fun acc q => 2 * acc + b2 q) B) ↔
      (A = B ∧ ∀ q ∈ L, b1 q = b2 q) := by
  intro L
  induction L with
  | nil => intro A B; simp
  | cons q L ih =>
      intro A B
      simp only [List.foldl_cons]
      rw [ih (2 * A + b1 q) (2 * B + b2 q)]
      constructor
      · rintro ⟨hAB, hrest⟩
        have h1 := hb1 q
        have h2 := hb2 q
        refine ⟨by omega, ?_⟩
        intro q' hq'
        rcases List.mem_cons.mp hq' with rfl | hq'
        · omega
        · exact hrest q' hq'
      · rintro ⟨rfl, hall⟩
        have hq := hall q (List.mem_cons_self _ _)
        exact ⟨by omega, fun q' hq' => hall q' (List.mem_cons_of_mem _ hq')⟩

/-- Two indices have the same sub-index on a target list exactly when they
agree on every target bit. -/
theorem subIdx_eq_iff (n : ℕ) (ts : List ℕ) (i j : ℕ) :
    subIdx n ts i = subIdx n ts j ↔ ∀ q ∈ ts, bitAt n q i = bitAt n q j := by
  rw [subIdx, subIdx,
    foldl_bits_eq_iff (fun q => bitAt n q i) (fun q => bitAt n q j)
      (fun q => bitAt_lt_two n q i) (fun q => bitAt_lt_two n q j) ts 0 0]
  simp

/-- Two indices have the same complement index exactly when they agree on
every non-target bit. -/
theorem compIdx_eq_iff (n : ℕ) (ts : List ℕ) (i j : ℕ) :
    compIdx n ts i = compIdx n ts j ↔
      ∀ q, q < n → q ∉ ts → bitAt n q i = bitAt n q j := by
  rw [compIdx, compIdx, subIdx_eq_iff]
  constructor
  · intro h q hq hq'
    exact h q (by simp [List.mem_filter, List.mem_range, hq, hq'])
  · intro h q hq
    rw [List.mem_filter] at hq
    exact h q (List.mem_range.mp hq.1) (by simpa using hq.2)

/-- Booleans with equal `toNat` are equal. -/
theorem toNat_inj {b1 b2 : Bool} (h : b1.toNat = b2.toNat) : b1 = b2 := by
  cases b1 <;> cases b2 <;> simp_all

/-- Complement agreement over a contiguous bond splits into a high-quotient
condition and a low-remainder condition. -/
theorem comp_contig (n a i j : ℕ) (ha : a + 1 < n) (hi : i < 2 ^ n)
    (hj : j < 2 ^ n) :
    compIdx n [a, a + 1] i = compIdx n [a, a + 1] j ↔
      (i / 2 ^ (n - a) = j / 2 ^ (n - a) ∧
        i % 2 ^ (n - 2 - a) = j % 2 ^ (n - 2 - a)) := by
  rw [compIdx_eq_iff]
  constructor
  · intro h
    constructor
    · rw [div_pow_eq_iff_testBit]
      intro p hp
      by_cases hpn : p < n
      · have hq := h (n - 1 - p) (by omega) (by simp; omega)
        rw [bitAt_eq_testBit, bitAt_eq_testBit] at hq
        have hqq : n - 1 - (n - 1 - p) = p := by omega
        rw [hqq] at hq
        exact toNat_inj hq
      · have hn : n ≤ p := by omega
        have hle : 2 ^ n ≤ 2 ^ p := Nat.pow_le_pow_right (by norm_num) hn
        rw [Nat.testBit_lt_two_pow (lt_of_lt_of_le hi hle),
          Nat.testBit_lt_two_pow (lt_of_lt_of_le hj hle)]
    · rw [mod_pow_eq_iff_testBit]
      intro p hp
      have hq := h (n - 1 - p) (by omega) (by simp; omega)
      rw [bitAt_eq_testBit, bitAt_eq_testBit] at hq
      have hqq : n - 1 - (n - 1 - p) = p := by omega
      rw [hqq] at hq
      exact toNat_inj hq
  · rintro ⟨hdiv, hmod⟩ q hq hqne
    simp only [List.mem_cons, List.not_mem_nil, or_false] at hqne
    push_neg at hqne
    rw [bitAt_eq_testBit, bitAt_eq_testBit]
    have hcase : n - 1 - q < n - 2 - a ∨ n - a ≤ n - 1 - q := by omega
    rcases hcase with hc | hc
    · rw [mod_pow_eq_iff_testBit] at hmod
      rw [hmod (n - 1 - q) hc]
    · rw [div_pow_eq_iff_testBit] at hdiv
      rw [hdiv (n - 1 - q) hc]

/-- Complement agreement over the wrapping bond is equality of the middle
bits. -/
theorem comp_wrap (n i j : ℕ) (hn : 2 ≤ n) (_hi : i < 2 ^ n) (_hj : j < 2 ^ n) :
    compIdx n [n - 1, 0] i = compIdx n [n - 1, 0] j ↔
      i / 2 % 2 ^ (n - 2) = j / 2 % 2 ^ (n - 2) := by
  rw [compIdx_eq_iff, mod_pow_eq_iff_testBit]
  constructor
  · intro h p hp
    rw [Nat.testBit_div_two, Nat.testBit_div_two]
    have hq := h (n - 1 - (p + 1)) (by omega) (by simp; omega)
    rw [bitAt_eq_testBit, bitAt_eq_testBit] at hq
    have hqq : n - 1 - (n - 1 - (p + 1)) = p + 1 := by omega
    rw [hqq] at hq
    exact toNat_inj hq
  · intro h q hq hqne
    simp only [List.mem_cons, List.not_mem_nil, or_false] at hqne
    push_neg at hqne
    rw [bitAt_eq_testBit, bitAt_eq_testBit]
    have hp : n - 1 - q = (n - 1 - q - 1) + 1 := by omega
    have hplt : n - 1 - q - 1 < n - 2 := by omega
    rw [hp, ← Nat.testBit_div_two, ← Nat.testBit_div_two]
    rw [h (n - 1 - q - 1) hplt]

/-- The sub-index over a two-element target list. -/
theorem subIdx_pair (n a b i : ℕ) :
    subIdx n [a, b] i = 2 * bitAt n a i + bitAt n b i := by
  simp [subIdx]

/-- The sub-index of a contiguous bond is a two-bit field of the index. -/
theorem subIdx_contig (n a i : ℕ) (ha : a + 1 < n) :
    subIdx n [a, a + 1] i = i / 2 ^ (n - 2 - a) % 4 := by
  rw [subIdx_pair]
  have h1 : n - 1 - a = (n - 2 - a) + 1 := by omega
  have h2 : n - 1 - (a + 1) = n - 2 - a := by omega
  rw [bitAt, bitAt, h1, h2]
  rw [pow_succ, ← Nat.div_div_eq_div_mul]
  omega

/-- The sub-index of the wrapping bond reads the last and first qubits. -/
theorem subIdx_wrap (n i : ℕ) (hn : 1 ≤ n) (hi : i < 2 ^ n) :
    subIdx n [n - 1, 0] i = i % 2 * 2 + i / 2 ^ (n - 1) := by
  rw [subIdx_pair]
  have h1 : n - 1 - (n - 1) = 0 := by omega
  rw [bitAt, bitAt, h1]
  simp only [pow_zero, Nat.div_one]
  have h2 : i / 2 ^ (n - 1) < 2 := by
    apply Nat.div_lt_of_lt_mul
    rw [← pow_succ]
    have h3 : n - 1 + 1 = n := by omega
    rw [h3]
    exact hi
  rw [Nat.sub_sub, Nat.mod_eq_of_lt h2]
  omega

/-- A contiguous-bond embedding is the Kronecker sandwich
`eye ⊗ M ⊗ eye`. -/
theorem embed_contig (n a : ℕ) (T : Hamiltonian) (ha : a + 1 < n) (i j : ℕ)
    (hi : i < 2 ^ n) (hj : j < 2 ^ n) :
    embedEntry n [a, a + 1] T i j = bondMat n a T.matrix i j := by
  have heye : eyeFun (compIdx n [a, a + 1] i) (compIdx n [a, a + 1] j) =
      eyeFun (i / (2 ^ (n - 2 - a) * 4)) (j / (2 ^ (n - 2 - a) * 4)) *
      eyeFun (i % 2 ^ (n - 2 - a)) (j % 2 ^ (n - 2 - a)) := by
    have hpow : 2 ^ (n - 2 - a) * 4 = 2 ^ (n - a) := by
      have h1 : n - a = (n - 2 - a) + 2 := by omega
      rw [h1, pow_add]
      norm_num
    rw [hpow]
    by_cases h : compIdx n [a, a + 1] i = compIdx n [a, a + 1] j
    · obtain ⟨hd, hm⟩ := (comp_contig n a i j ha hi hj).mp h
      simp [eyeFun, h, hd, hm]
    · have hnot := h
      rw [comp_contig n a i j ha hi hj] at hnot
      by_cases hd : i / 2 ^ (n - a) = j / 2 ^ (n - a)
      · have hm : ¬ i % 2 ^ (n - 2 - a) = j % 2 ^ (n - 2 - a) := by
          intro hm
          exact hnot ⟨hd, hm⟩
        simp [eyeFun, h, hm]
      · simp [eyeFun, h, hd]
  rw [embedEntry, bondMat, kron, kron,
    Nat.mod_mul_right_div_self, Nat.mod_mul_right_div_self,
    Nat.mod_mod_of_dvd i ⟨4, rfl⟩, Nat.mod_mod_of_dvd j ⟨4, rfl⟩,
    subIdx_contig n a i ha, subIdx_contig n a j ha, heye]
  ring

/-- The wrapping-bond embedding is the brute-force wrap matrix. -/
theorem embed_wrap (n : ℕ) (T : Hamiltonian) (hn : 2 ≤ n) (i j : ℕ)
    (hi : i < 2 ^ n) (hj : j < 2 ^ n) :
    embedEntry n [n - 1, 0] T i j = wrapMat n T.matrix i j := by
  have heye : eyeFun (compIdx n [n - 1, 0] i) (compIdx n [n - 1, 0] j) =
      eyeFun (i / 2 % 2 ^ (n - 2)) (j / 2 % 2 ^ (n - 2)) := by
    by_cases h : compIdx n [n - 1, 0] i = compIdx n [n - 1, 0] j
    · have hm := (comp_wrap n i j hn hi hj).mp h
      simp [eyeFun, h, hm]
    · have hm : ¬ i / 2 % 2 ^ (n - 2) = j / 2 % 2 ^ (n - 2) := by
        intro hm
        exact h ((comp_wrap n i j hn hi hj).mpr hm)
      simp [eyeFun, h, hm]
  rw [embedEntry, wrapMat, subIdx_wrap n i (by omega) hi,
    subIdx_wrap n j (by omega) hj, heye]

/-- List-range sums as `Finset.range` sums. -/
theorem list_range_map_sum {M : Type} [AddCommMonoid M] (k : ℕ) (f : ℕ → M) :
    ((List.range k).map f).sum = ∑ r ∈ Finset.range k, f r := by
  induction k with
  | zero => simp
  | succ k ih =>
      rw [List.range_succ, List.map_append, List.sum_append,
        Finset.sum_range_succ, ih]
      simp

/-- Peeling the last index of a range sum. -/
theorem sum_peel_last {M : Type} [AddCommMonoid M] (m : ℕ) (hm : 0 < m)
    (f : ℕ → M) :
    ∑ r ∈ Finset.range m, f r = (∑ r ∈ Finset.range (m - 1), f r) + f (m - 1) := by
  conv_lhs => rw [show m = (m - 1) + 1 from by omega]
  rw [Finset.sum_range_succ]

/-- Splitting a range sum into its even and odd subsequences, with the last
odd index removed. -/
theorem sum_range_even_odd {M : Type} [AddCommMonoid M] (f : ℕ → M) :
    ∀ (m : ℕ), 0 < m →
      ∑ q ∈ Finset.range (2 * m - 1), f q =
        (∑ r ∈ Finset.range m, f (2 * r)) +
        ∑ r ∈ Finset.range (m - 1), f (2 * r + 1) := by
  intro m
  induction m with
  | zero => omega
  | succ k ih =>
      intro _
      by_cases hk : k = 0
      · subst hk
        simp
      · have hk' : 0 < k := Nat.pos_of_ne_zero hk
        have h1 : 2 * (k + 1) - 1 = (2 * k - 1) + 1 + 1 := by omega
        have h4 : k + 1 - 1 = k := by omega
        rw [h1, Finset.sum_range_succ, Finset.sum_range_succ, ih hk', h4,
          Finset.sum_range_succ, sum_peel_last k hk' (fun r => f (2 * r + 1))]
        have h5 : 2 * k - 1 + 1 = 2 * k := by omega
        have h6 : 2 * (k - 1) + 1 = 2 * k - 1 := by omega
        rw [h5, h6]
        abel

/-- C4: the dense reconstruction of a `from_single_term` Hamiltonian on an
even ring of `2m` qubits equals, entry by entry, the brute-force sum of the
two-qubit term embedded on every ring bond — `eye ⊗ T ⊗ eye` for
contiguous bonds and the wrapping matrix for the bond `(2m-1, 0)`. -/
theorem from_single_term_dense_ring (m : ℕ) (T : Hamiltonian)
    (env : TermId → TermObj) (hm : 0 < m) (henv : env 0 = .ham T)
    (_hT : T.nqubits = 2) (H : LocalHamiltonian)
    (hH : fromSingleTerm (2 * m) 0 env = .ok H) (i j : ℕ)
    (hi : i < 2 ^ (2 * m)) (hj : j < 2 ^ (2 * m)) :
    denseEntry H i j = ringBruteMat (2 * m) T.matrix i j := by
  rcases hck : checkPairs env (pairsOf (fromSingleTermParts (2 * m) 0)) none with e | d
  · rw [fromSingleTerm, mkLocal_error _ _ _ hck] at hH
    cases hH
  · rw [fromSingleTerm, mkLocal_ok _ _ _ hck] at hH
    have hHeq := Except.ok.inj hH
    subst hHeq
    have hnq : ((allTargets (fromSingleTermParts (2 * m) 0)).card) = 2 * m := by
      rw [allTargets_fromSingleTermParts m 0 hm, Finset.card_range]
    have henvT : resolveTerm env 0 = T := by rw [resolveTerm, henv]
    simp only [denseEntry]
    rw [hnq, fromSingleTermParts_even m 0 hm]
    simp only [pairsOf, List.flatten_cons, List.flatten_nil, List.append_nil,
      List.map_append, List.sum_append, List.map_map]
    rw [list_range_map_sum, list_range_map_sum]
    simp only [Function.comp_apply]
    rw [henvT]
    have heven : (∑ r ∈ Finset.range m, embedEntry (2 * m) [2 * r, 2 * r + 1] T i j) =
        ∑ r ∈ Finset.range m, bondMat (2 * m) (2 * r) T.matrix i j := by
      apply Finset.sum_congr rfl
      intro r hr
      rw [Finset.mem_range] at hr
      exact embed_contig (2 * m) (2 * r) T (by omega) i j hi hj
    have hodd : (∑ r ∈ Finset.range m,
        embedEntry (2 * m) [2 * r + 1, if r + 1 = m then 0 else 2 * r + 2] T i j) =
        (∑ r ∈ Finset.range (m - 1), bondMat (2 * m) (2 * r + 1) T.matrix i j) +
          wrapMat (2 * m) T.matrix i j := by
      rw [sum_peel_last m hm]
      congr 1
      · apply Finset.sum_congr rfl
        intro r hr
        rw [Finset.mem_range] at hr
        rw [if_neg (by omega)]
        exact embed_contig (2 * m) (2 * r + 1) T (by omega) i j hi hj
      · rw [if_pos (by omega)]
        have h1 : 2 * (m - 1) + 1 = 2 * m - 1 := by omega
        rw [h1]
        exact embed_wrap (2 * m) T (by omega) i j hi hj
    have hrhs : ringBruteMat (2 * m) T.matrix i j =
        (∑ q ∈ Finset.range (2 * m - 1), bondMat (2 * m) q T.matrix i j) +
          wrapMat (2 * m) T.matrix i j := by
      rw [ringBruteMat]
      rw [sum_peel_last (2 * m) (by omega)]
      congr 1
      · apply Finset.sum_congr rfl
        intro q hq
        rw [Finset.mem_range] at hq
        rw [ringBondMat, if_pos (by omega)]
      · rw [ringBondMat, if_neg (by omega)]
    have hsplit : (∑ q ∈ Finset.range (2 * m - 1), bondMat (2 * m) q T.matrix i j) =
        (∑ r ∈ Finset.range m, bondMat (2 * m) (2 * r) T.matrix i j) +
          ∑ r ∈ Finset.range (m - 1), bondMat (2 * m) (2 * r + 1) T.matrix i j :=
      sum_range_even_odd _ m hm
    rw [heven, hodd, hrhs, hsplit]
    abel

/-- Closed witness for `from_single_term_dense_ring`: the two-qubit ring at
entry `(0, 1)`. -/
theorem from_single_term_dense_ring_witness :
    ∃ H, fromSingleTerm 2 0 (fun _ => .ham ringTerm) = .ok H ∧
      denseEntry H 0 1 = ringBruteMat 2 ringTerm.matrix 0 1 := by
  refine ⟨{ parts := fromSingleTermParts 2 0,
            env := resolveTerm (fun _ => .ham ringTerm),
            nqubits := 2, dtype := 0 }, ?_, ?_⟩
  · rfl
  · exact from_single_term_dense_ring 1 ringTerm (fun _ => .ham ringTerm)
      (by norm_num) rfl rfl _ rfl 0 1 (by norm_num) (by norm_num)

end Qibo
